import Mathlib

/-!
# Verification of the UASP core against its specification

Shallow embedding of the `uasp` repository's core subsystems:

* `uasp/core/version.py` — content fingerprinting (canonical JSON + SHA-256),
* `uasp/core/query.py`   — the path-based query engine with glob filters,
* `uasp/core/loader.py`  — version checking during document loading,
* `uasp/runtime/state_manager.py` and `uasp/runtime/executor.py` — the
  state tracker and the state-machine-driven command executor.

Documents are trees of mappings, sequences and scalars, exactly the value
universe that `json.dumps` accepts in this code base (strings, integers,
booleans, null; floating point is out of scope).  Python dictionaries are
modelled as association lists in insertion order; all Python dictionaries in
play have unique keys, which theorems assume explicitly where it matters.
Fallible Python code (code paths that raise for ill-formed inputs) is
modelled with `Option`/`Except`.
-/

set_option autoImplicit false

namespace Uasp

/-- A document value: the tree of mappings (string keys, insertion order
preserved), sequences and scalars handled by the repository.  Mirrors the
values produced by `yaml.safe_load`/accepted by `json.dumps` in
`uasp/core/version.py` (floats excluded, see module doc). -/
inductive Value where
  | null : Value
  | bool (b : Bool) : Value
  | int (n : Int) : Value
  | str (s : String) : Value
  | list (items : List Value) : Value
  | dict (entries : List (String × Value)) : Value

namespace Value

/-- First-match association-list lookup: Python `d[k]` / `k in d` semantics
(Python dicts have unique keys, so first match is the match). -/
def dictLookup : List (String × Value) → String → Option Value
  | [], _ => none
  | (k, v) :: rest, key => if k = key then some v else dictLookup rest key

/-- Python `d[k] = v` on a dict: overwrite the (unique) existing entry in
place, keeping its position, or append a fresh entry at the end. -/
def dictSet : List (String × Value) → String → Value → List (String × Value)
  | [], key, v => [(key, v)]
  | (k, w) :: rest, key, v =>
    if k = key then (k, v) :: rest else (k, w) :: dictSet rest key v

/-- Python truthiness of a document value (`bool(v)`). -/
def pyTruthy : Value → Bool
  | .null => false
  | .bool b => b
  | .int n => n != 0
  | .str s => s ≠ ""
  | .list l => !l.isEmpty
  | .dict l => !l.isEmpty

/-- Python `v == s` for a string literal `s`: only a `str` of equal contents
compares equal (no cross-type equality with strings in Python). -/
def eqStr : Value → String → Bool
  | .str t, s => t = s
  | _, _ => false

end Value

/-! ## Canonical JSON serialization

`calculate_version` normalizes with
`json.dumps(skill_copy, sort_keys=True, separators=(",", ":"))`; the
following reproduces that encoder (default `ensure_ascii=True`) on the
value universe of this repository. -/

/-- The sixteen lowercase hexadecimal digit characters. -/
def hexDigits : List Char := "0123456789abcdef".data

/-- Lowercase hex digit for `n` (callers pass `n < 16`). -/
def hexChar (n : Nat) : Char := hexDigits.getD n '0'

/-- `\uXXXX` escape with lowercase hex, as `json.dumps` emits with
`ensure_ascii=True`. -/
def uEscape (n : Nat) : List Char :=
  ['\\', 'u', hexChar ((n >>> 12) % 16), hexChar ((n >>> 8) % 16),
   hexChar ((n >>> 4) % 16), hexChar (n % 16)]

/-- Escaping of one character by the CPython ASCII JSON string encoder:
`"` and `\` get backslash escapes, the named control escapes `\n \t \r \b \f`
are used, other characters outside `0x20..0x7e` become `\uXXXX`
(surrogate pairs above `0xFFFF`). -/
def jsonEscapeChar (c : Char) : List Char :=
  if c = '"' then ['\\', '"']
  else if c = '\\' then ['\\', '\\']
  else if c = '\n' then ['\\', 'n']
  else if c = '\t' then ['\\', 't']
  else if c = '\r' then ['\\', 'r']
  else if c.toNat = 8 then ['\\', 'b']
  else if c.toNat = 12 then ['\\', 'f']
  else if c.toNat < 0x20 then uEscape c.toNat
  else if c.toNat < 0x7f then [c]
  else if c.toNat < 0x10000 then uEscape c.toNat
  else
    let n := c.toNat - 0x10000
    uEscape (0xD800 + (n >>> 10)) ++ uEscape (0xDC00 + (n % 1024))

/-- JSON string literal for `s` (double quotes around the escaped body). -/
def jsonQuote (s : String) : String :=
  ⟨'"' :: (s.data.map jsonEscapeChar).flatten ++ ['"']⟩

/-- Python's `<` on strings, restricted to the character lists: strict
lexicographic comparison by code point. -/
def charListLt : List Char → List Char → Bool
  | _, [] => false
  | [], _ :: _ => true
  | a :: as, b :: bs =>
    if a.toNat < b.toNat then true
    else if b.toNat < a.toNat then false
    else charListLt as bs

/-- Python's `a < b` on strings: lexicographic by code point. -/
def strLt (a b : String) : Bool := charListLt a.data b.data

/-- Ordering of dict entries by key, the order `sort_keys=True` sorts by:
`p ≤ q` iff the key of `q` is not strictly below the key of `p`.  Generic in
the value component so that the same relation sorts entries before and after
their values are encoded. -/
def keyLE {β : Type} (p q : String × β) : Prop := strLt q.1 p.1 = false

instance {β : Type} : DecidableRel (keyLE (β := β)) :=
  fun p q => inferInstanceAs (Decidable (strLt q.1 p.1 = false))

/-- Stable sort of dict entries by key (`sorted` on the items, as the JSON
encoder performs for `sort_keys=True`; keys are unique in Python dicts). -/
def sortByKey {β : Type} (l : List (String × β)) : List (String × β) :=
  List.insertionSort keyLE l

mutual

/-- Canonical JSON text of a value: `json.dumps(v, sort_keys=True,
separators=(",", ":"))`.  The encoder sorts a mapping's items by key and
then encodes each value; since the comparison looks only at keys, this
implementation encodes the values first and then sorts the resulting
`(key, text)` pairs — `jsonSer_dict` below proves the sort-then-encode
equation of the source.  (Mutual structural recursion; a direct
well-founded definition would not reduce inside the kernel.) -/
def jsonSer : Value → String
  | .null => "null"
  | .bool b => if b then "true" else "false"
  | .int n => toString n
  | .str s => jsonQuote s
  | .list items => "[" ++ String.intercalate "," (jsonSerList items) ++ "]"
  | .dict entries =>
      "\x7b" ++ String.intercalate ","
        ((sortByKey (jsonSerEntries entries)).map fun p =>
          jsonQuote p.1 ++ ":" ++ p.2) ++ "\x7d"

def jsonSerList : List Value → List String
  | [] => []
  | v :: vs => jsonSer v :: jsonSerList vs

def jsonSerEntries : List (String × Value) → List (String × String)
  | [] => []
  | (k, v) :: rest => (k, jsonSer v) :: jsonSerEntries rest

end

/-- Inserting into a key-sorted list commutes with mapping the values
(`keyLE` compares only keys, which the map keeps). -/
theorem orderedInsert_map_keyLE (f : Value → String) :
    ∀ (l : List (String × Value)) (p : String × Value),
      List.orderedInsert keyLE (p.1, f p.2)
          (l.map fun q => (q.1, f q.2)) =
        (List.orderedInsert keyLE p l).map fun q => (q.1, f q.2)
  | [], p => rfl
  | q :: rest, p => by
    by_cases h : keyLE p q
    · have h' : keyLE (p.1, f p.2) (q.1, f q.2) := h
      simp [List.orderedInsert, h, h']
    · have h' : ¬keyLE (p.1, f p.2) (q.1, f q.2) := h
      simp [List.orderedInsert, h, h', orderedInsert_map_keyLE f rest p]

/-- Sorting by key commutes with mapping the values. -/
theorem sortByKey_map_keyLE (f : Value → String) :
    ∀ l : List (String × Value),
      sortByKey (l.map fun q => (q.1, f q.2)) =
        (sortByKey l).map fun q => (q.1, f q.2)
  | [] => rfl
  | p :: rest => by
    simp only [List.map_cons, sortByKey, List.insertionSort]
    rw [show List.insertionSort keyLE (rest.map fun q => (q.1, f q.2)) =
        sortByKey (rest.map fun q => (q.1, f q.2)) from rfl,
      sortByKey_map_keyLE f rest]
    exact orderedInsert_map_keyLE f (sortByKey rest) p

/-! ## UTF-8 and SHA-256

`calculate_version` hashes `normalized.encode("utf-8")` with
`hashlib.sha256(...).hexdigest()`.  Bytes are `Nat`s below 256, 32-bit words
are `Nat`s reduced `% 2^32` wherever overflow matters. -/

/-- UTF-8 encoding of one character (standard 1–4 byte encoding). -/
def charUtf8 (c : Char) : List Nat :=
  let n := c.toNat
  if n < 0x80 then [n]
  else if n < 0x800 then
    [0xC0 ||| (n >>> 6), 0x80 ||| (n &&& 0x3F)]
  else if n < 0x10000 then
    [0xE0 ||| (n >>> 12), 0x80 ||| ((n >>> 6) &&& 0x3F), 0x80 ||| (n &&& 0x3F)]
  else
    [0xF0 ||| (n >>> 18), 0x80 ||| ((n >>> 12) &&& 0x3F),
     0x80 ||| ((n >>> 6) &&& 0x3F), 0x80 ||| (n &&& 0x3F)]

/-- UTF-8 byte sequence of a string (`s.encode("utf-8")`). -/
def utf8Bytes (s : String) : List Nat := (s.data.map charUtf8).flatten

/-- `2^32`, the word modulus of SHA-256. -/
def w32 : Nat := 4294967296

/-- 32-bit right rotation. -/
def rotr (n x : Nat) : Nat := ((x >>> n) ||| (x <<< (32 - n))) % w32

/-- The 64 SHA-256 round constants (FIPS 180-4, in decimal). -/
def shaK : List Nat :=
  [1116352408, 1899447441, 3049323471, 3921009573, 961987163, 1508970993,
   2453635748, 2870763221, 3624381080, 310598401, 607225278, 1426881987,
   1925078388, 2162078206, 2614888103, 3248222580, 3835390401, 4022224774,
   264347078, 604807628, 770255983, 1249150122, 1555081692, 1996064986,
   2554220882, 2821834349, 2952996808, 3210313671, 3336571891, 3584528711,
   113926993, 338241895, 666307205, 773529912, 1294757372, 1396182291,
   1695183700, 1986661051, 2177026350, 2456956037, 2730485921, 2820302411,
   3259730800, 3345764771, 3516065817, 3600352804, 4094571909, 275423344,
   430227734, 506948616, 659060556, 883997877, 958139571, 1322822218,
   1537002063, 1747873779, 1955562222, 2024104815, 2227730452, 2361852424,
   2428436474, 2756734187, 3204031479, 3329325298]

/-- The eight 32-bit words of a SHA-256 hash state. -/
structure Sha256State where
  a : Nat
  b : Nat
  c : Nat
  d : Nat
  e : Nat
  f : Nat
  g : Nat
  h : Nat

/-- SHA-256 initial hash value (FIPS 180-4, in decimal). -/
def shaInit : Sha256State :=
  ⟨1779033703, 3144134277, 1013904242, 2773480762,
   1359893119, 2600822924, 528734635, 1541459225⟩

/-- Merkle–Damgård padding: `0x80`, zeros to 56 mod 64, then the bit length
as 8 big-endian bytes. -/
def padMessage (msg : List Nat) : List Nat :=
  let L := msg.length
  let z := (119 - L % 64) % 64
  let bits := 8 * L
  msg ++ [0x80] ++ List.replicate z 0 ++
    [(bits >>> 56) % 256, (bits >>> 48) % 256, (bits >>> 40) % 256,
     (bits >>> 32) % 256, (bits >>> 24) % 256, (bits >>> 16) % 256,
     (bits >>> 8) % 256, bits % 256]

/-- Split a byte list into 64-byte blocks.  Structural recursion on a fuel
bound (any fuel of at least `⌈length/64⌉` blocks gives the same result;
callers pass the list length, which always suffices). -/
def toBlocksGo : Nat → List Nat → List (List Nat)
  | _, [] => []
  | 0, _ :: _ => []
  | fuel + 1, b :: rest =>
    (b :: rest).take 64 :: toBlocksGo fuel ((b :: rest).drop 64)

/-- Split a byte list into 64-byte blocks. -/
def toBlocks (l : List Nat) : List (List Nat) := toBlocksGo l.length l

/-- Pack bytes into 32-bit big-endian words. -/
def blockWords : List Nat → List Nat
  | b0 :: b1 :: b2 :: b3 :: rest =>
    (((b0 * 256 + b1) * 256 + b2) * 256 + b3) :: blockWords rest
  | _ => []

/-- `σ₀` message-schedule function. -/
def ssig0 (x : Nat) : Nat := (rotr 7 x) ^^^ (rotr 18 x) ^^^ (x >>> 3)

/-- `σ₁` message-schedule function. -/
def ssig1 (x : Nat) : Nat := (rotr 17 x) ^^^ (rotr 19 x) ^^^ (x >>> 10)

/-- `Σ₀` compression function. -/
def bsig0 (x : Nat) : Nat := (rotr 2 x) ^^^ (rotr 13 x) ^^^ (rotr 22 x)

/-- `Σ₁` compression function. -/
def bsig1 (x : Nat) : Nat := (rotr 6 x) ^^^ (rotr 11 x) ^^^ (rotr 25 x)

/-- Extend the 16-word schedule by `k` further words. -/
def extendSchedule (ws : List Nat) : Nat → List Nat
  | 0 => ws
  | k + 1 =>
    let n := ws.length
    let w := (ssig1 (ws.getD (n - 2) 0) + ws.getD (n - 7) 0 +
              ssig0 (ws.getD (n - 15) 0) + ws.getD (n - 16) 0) % w32
    extendSchedule (ws ++ [w]) k

/-- One SHA-256 round, consuming a `(constant, scheduled word)` pair. -/
def shaRound (st : Sha256State) (kw : Nat × Nat) : Sha256State :=
  let ch := (st.e &&& st.f) ^^^ ((st.e ^^^ 0xFFFFFFFF) &&& st.g)
  let t1 := (st.h + bsig1 st.e + ch + kw.1 + kw.2) % w32
  let maj := (st.a &&& st.b) ^^^ (st.a &&& st.c) ^^^ (st.b &&& st.c)
  let t2 := (bsig0 st.a + maj) % w32
  ⟨(t1 + t2) % w32, st.a, st.b, st.c, (st.d + t1) % w32, st.e, st.f, st.g⟩

/-- Compress one 64-byte block into the running hash state. -/
def processBlock (st : Sha256State) (block : List Nat) : Sha256State :=
  let ws := extendSchedule (blockWords block) 48
  let r := List.foldl shaRound st (shaK.zip ws)
  ⟨(st.a + r.a) % w32, (st.b + r.b) % w32, (st.c + r.c) % w32,
   (st.d + r.d) % w32, (st.e + r.e) % w32, (st.f + r.f) % w32,
   (st.g + r.g) % w32, (st.h + r.h) % w32⟩

/-- SHA-256 of a byte list, as the final eight-word state. -/
def sha256 (msg : List Nat) : Sha256State :=
  List.foldl processBlock shaInit (toBlocks (padMessage msg))

/-- Eight lowercase hex characters of a 32-bit word, most significant first. -/
def wordHex (w : Nat) : List Char :=
  [hexChar ((w >>> 28) % 16), hexChar ((w >>> 24) % 16),
   hexChar ((w >>> 20) % 16), hexChar ((w >>> 16) % 16),
   hexChar ((w >>> 12) % 16), hexChar ((w >>> 8) % 16),
   hexChar ((w >>> 4) % 16), hexChar (w % 16)]

/-- `hashlib.sha256(msg).hexdigest()` as a character list (64 lowercase hex
characters). -/
def sha256hexList (msg : List Nat) : List Char :=
  let st := sha256 msg
  wordHex st.a ++ wordHex st.b ++ wordHex st.c ++ wordHex st.d ++
  wordHex st.e ++ wordHex st.f ++ wordHex st.g ++ wordHex st.h

/-! ## `uasp/core/version.py` -/

mutual

/-- `_deep_copy_value`: structural copy of a value (dicts and lists rebuilt,
scalars returned as-is).  On immutable trees this is the identity, proved in
`deepCopyValue_eq`. -/
def deepCopyValue : Value → Value
  | .dict m => .dict (deepCopyEntries m)
  | .list l => .list (deepCopyList l)
  | v => v

def deepCopyList : List Value → List Value
  | [] => []
  | v :: vs => deepCopyValue v :: deepCopyList vs

def deepCopyEntries : List (String × Value) → List (String × Value)
  | [] => []
  | (k, v) :: rest => (k, deepCopyValue v) :: deepCopyEntries rest

end

mutual

theorem deepCopyValue_eq : ∀ v : Value, deepCopyValue v = v
  | .null => rfl
  | .bool _ => rfl
  | .int _ => rfl
  | .str _ => rfl
  | .list l => by rw [deepCopyValue, deepCopyList_eq l]
  | .dict m => by rw [deepCopyValue, deepCopyEntries_eq m]

theorem deepCopyList_eq : ∀ l : List Value, deepCopyList l = l
  | [] => rfl
  | v :: vs => by rw [deepCopyList, deepCopyValue_eq v, deepCopyList_eq vs]

theorem deepCopyEntries_eq : ∀ l : List (String × Value), deepCopyEntries l = l
  | [] => rfl
  | (k, v) :: rest => by
      rw [deepCopyEntries, deepCopyValue_eq v, deepCopyEntries_eq rest]

end

/-- One entry of `_deep_copy_without_version`'s top-level loop: the `meta`
entry is replaced by a copy of the metadata with `version` filtered out
(the source's dict comprehension); any other entry is deep-copied.  Python
raises `AttributeError` when the `meta` value is not a mapping
(`value.items()`); that case is `none`. -/
def stripMetaEntry : String × Value → Option (String × Value)
  | (k, v) =>
    if k = "meta" then
      match v with
      | .dict m => some (k, .dict (m.filter fun q => q.1 != "version"))
      | _ => none
    else some (k, deepCopyValue v)

/-- The loop of `_deep_copy_without_version` over the top-level items,
collecting the copied entries (`none` aborts on the first exception). -/
def stripEntries : List (String × Value) → Option (List (String × Value))
  | [] => some []
  | p :: rest =>
    match stripMetaEntry p with
    | none => none
    | some q => (stripEntries rest).map fun qs => q :: qs

/-- `_deep_copy_without_version`: copy of the document with `meta.version`
removed.  `none` models the exceptions Python raises on a non-mapping
document (`skill_dict.items()`) or a non-mapping `meta`. -/
def deepCopyWithoutVersion (d : Value) : Option Value :=
  match d with
  | .dict entries => (stripEntries entries).map Value.dict
  | _ => none

/-- `calculate_version`: 8-character truncation of the SHA-256 hex digest of
the canonical JSON of the document without its `meta.version` field.
`none` models the exceptions of `_deep_copy_without_version`. -/
def calculateVersion (d : Value) : Option String :=
  (deepCopyWithoutVersion d).map fun copy =>
    ⟨(sha256hexList (utf8Bytes (jsonSer copy))).take 8⟩

/-- `verify_version`: `(stored == calculated, stored, calculated)` with
`stored = skill_dict.get("meta", {}).get("version", "")`.  `none` models the
`AttributeError` Python raises when the document or its `meta` value is not
a mapping (the same condition under which `calculate_version` raises). -/
def verifyVersion (d : Value) : Option (Bool × Value × String) :=
  match d with
  | .dict entries =>
    match (Value.dictLookup entries "meta").getD (.dict []) with
    | .dict m =>
      let stored := (Value.dictLookup m "version").getD (.str "")
      (calculateVersion d).map fun calculated =>
        (stored.eqStr calculated, stored, calculated)
    | _ => none
  | _ => none

/-- `update_version`: a full copy (`_deep_copy_value`, the identity here)
whose `meta.version` entry is overwritten with the hash calculated from the
input.  `none` models the `KeyError`/`TypeError` on a document without a
mapping-valued `meta`. -/
def updateVersion (d : Value) : Option Value :=
  match deepCopyValue d with
  | .dict entries =>
    match Value.dictLookup entries "meta" with
    | some (.dict m) =>
      (calculateVersion d).map fun c =>
        .dict (Value.dictSet entries "meta"
          (.dict (Value.dictSet m "version" (.str c))))
    | _ => none
  | _ => none

/-- The claim-side construct `D with meta.version set to v`: replace or add
the `version` entry of the document's mapping-valued `meta` (identity when
there is no such `meta`; the relevant theorems assume there is one). -/
def setMetaVersion (d : Value) (v : String) : Value :=
  match d with
  | .dict entries =>
    match Value.dictLookup entries "meta" with
    | some (.dict m) =>
      .dict (Value.dictSet entries "meta"
        (.dict (Value.dictSet m "version" (.str v))))
    | _ => d
  | _ => d

/-! ## Python `str()`/`repr()` rendering, used in messages and filters -/

/-- Escaping of one character inside a single-quoted Python `repr` string
(backslash, quote and common control escapes; other characters are kept
as-is — the exotic quote-switching cases of CPython do not arise in any
claim). -/
def pyReprChar (c : Char) : List Char :=
  if c = '\\' then ['\\', '\\']
  else if c = '\'' then ['\\', '\'']
  else if c = '\n' then ['\\', 'n']
  else if c = '\r' then ['\\', 'r']
  else if c = '\t' then ['\\', 't']
  else [c]

mutual

/-- Python `repr` of a document value (containers render their items with
`repr`, which is what `str()` produces for lists and dicts). -/
def pyRepr : Value → String
  | .null => "None"
  | .bool b => if b then "True" else "False"
  | .int n => toString n
  | .str s => ⟨'\'' :: (s.data.map pyReprChar).flatten ++ ['\'']⟩
  | .list l => "[" ++ String.intercalate ", " (pyReprList l) ++ "]"
  | .dict m => "\x7b" ++ String.intercalate ", " (pyReprEntries m) ++ "\x7d"

def pyReprList : List Value → List String
  | [] => []
  | v :: vs => pyRepr v :: pyReprList vs

def pyReprEntries : List (String × Value) → List String
  | [] => []
  | (k, v) :: rest =>
      (pyRepr (.str k) ++ ": " ++ pyRepr v) :: pyReprEntries rest

end

/-- Python `str()` of a document value, as used by f-strings and
`str(value)` coercions in the source. -/
def pyStr : Value → String
  | .str s => s
  | v => pyRepr v

/-! ## `uasp/core/loader.py` (version checking during load) -/

/-- Failure modes of `SkillLoader.load_dict`. -/
inductive LoadError where
  | validationFailed (errors : List String)
  | versionMismatch (message : String)
  | internalError

/-- `SkillLoader.load_dict`.  Schema validation is out of scope (an external
collaborator per the spec) and is supplied as an oracle `validate` returning
error strings; producing the final typed model (`Skill.from_dict`) is the
collaborator boundary, modelled as yielding the accepted document.
`strictVersion` is the loader's constructor flag; `internalError` stands for
an exception escaping `verify_version` on shapes the schema would reject. -/
def loadDict (strictVersion : Bool) (validate : Value → List String)
    (d : Value) (source : String) : Except LoadError Value :=
  match validate d with
  | e :: es => .error (.validationFailed (e :: es))
  | [] =>
    match verifyVersion d with
    | none => .error .internalError
    | some (isValid, stored, calculated) =>
      if isValid then .ok d
      else
        let msg := "Version mismatch in " ++ source ++ ": stored=" ++
          pyStr stored ++ ", calculated=" ++ calculated
        if strictVersion then .error (.versionMismatch msg) else .ok d

/-! ## Hash exclusion and round-trip lemmas -/

/-- Removing the `version` key ignores a prior overwrite/insert of that same
key: the comprehension `{k: v for k, v in m.items() if k != "version"}` is
blind to `m["version"]`. -/
theorem filter_version_dictSet (m : List (String × Value)) (x : Value) :
    (Value.dictSet m "version" x).filter (fun q => q.1 != "version") =
      m.filter (fun q => q.1 != "version") := by
  induction m with
  | nil => simp [Value.dictSet]
  | cons p rest ih =>
    obtain ⟨k, w⟩ := p
    by_cases hk : k = "version"
    · subst hk
      simp [Value.dictSet]
    · simp [Value.dictSet, hk, ih]

/-- Looking up the key just set returns the new value. -/
theorem dictLookup_dictSet (m : List (String × Value)) (k : String) (v : Value) :
    Value.dictLookup (Value.dictSet m k v) k = some v := by
  induction m with
  | nil => simp [Value.dictSet, Value.dictLookup]
  | cons p rest ih =>
    obtain ⟨k', w⟩ := p
    by_cases hk : k' = k
    · subst hk; simp [Value.dictSet, Value.dictLookup]
    · simp [Value.dictSet, Value.dictLookup, hk, ih]

/-- Core of hash exclusion: overwriting `meta.version` does not change the
version-stripped copy of the document. -/
theorem stripEntries_set_meta (m : List (String × Value)) (x : Value) :
    ∀ entries : List (String × Value),
      Value.dictLookup entries "meta" = some (.dict m) →
      stripEntries (Value.dictSet entries "meta"
          (.dict (Value.dictSet m "version" x))) =
        stripEntries entries := by
  intro entries
  induction entries with
  | nil => intro h; simp [Value.dictLookup] at h
  | cons p rest ih =>
    obtain ⟨k, w⟩ := p
    intro h
    by_cases hk : k = "meta"
    · subst hk
      simp [Value.dictLookup] at h
      subst h
      simp [Value.dictSet, stripEntries, stripMetaEntry, filter_version_dictSet]
    · simp only [Value.dictLookup, if_neg hk] at h
      simp [Value.dictSet, hk, stripEntries, stripMetaEntry, ih h]

/-- C1: for every document with a mapping-valued `meta` and any two
fingerprint strings `v1`, `v2`, calculating the version of the document with
`meta.version` set to `v1` and to `v2` gives the same result, and that
result also equals the version calculated from the document as it is
(so the fingerprint is unchanged whether `meta.version` is present or
absent): the hash depends only on the content with the metadata-level
version removed. -/
theorem calculate_ignores_meta_version
    (entries m : List (String × Value)) (v1 v2 : String)
    (hmeta : Value.dictLookup entries "meta" = some (.dict m)) :
    calculateVersion (setMetaVersion (.dict entries) v1) =
      calculateVersion (setMetaVersion (.dict entries) v2) ∧
    calculateVersion (setMetaVersion (.dict entries) v1) =
      calculateVersion (.dict entries) := by
  have key : ∀ v : String,
      deepCopyWithoutVersion (setMetaVersion (.dict entries) v) =
        deepCopyWithoutVersion (.dict entries) := by
    intro v
    simp only [setMetaVersion, hmeta, deepCopyWithoutVersion]
    rw [stripEntries_set_meta m _ entries hmeta]
  exact ⟨by simp only [calculateVersion, key],
         by simp only [calculateVersion, key]⟩

/-- Witness for C1 at a concrete document. -/
theorem calculate_ignores_meta_version_witness :
    calculateVersion (setMetaVersion
        (.dict [("meta", .dict [("name", .str "test-skill")])]) "aaaaaaaa") =
      calculateVersion (setMetaVersion
        (.dict [("meta", .dict [("name", .str "test-skill")])]) "bbbbbbbb") ∧
    calculateVersion (setMetaVersion
        (.dict [("meta", .dict [("name", .str "test-skill")])]) "aaaaaaaa") =
      calculateVersion (.dict [("meta", .dict [("name", .str "test-skill")])]) :=
  calculate_ignores_meta_version [("meta", .dict [("name", .str "test-skill")])]
    [("name", .str "test-skill")] "aaaaaaaa" "bbbbbbbb" rfl

/-- C5: `verify(update(D))` reports valid — `update_version` returns a new
document whose stored fingerprint is exactly the fingerprint recomputed from
that document (the input and output of every function here are immutable
values; `_deep_copy_value` is proved to be the identity in
`deepCopyValue_eq`). -/
theorem verify_after_update (d u : Value) (h : updateVersion d = some u) :
    ∃ c, calculateVersion d = some c ∧ verifyVersion u = some (true, .str c, c) := by
  cases d with
  | dict entries =>
    simp only [updateVersion, deepCopyValue_eq] at h
    cases hm : Value.dictLookup entries "meta" with
    | none => rw [hm] at h; simp at h
    | some mv =>
      cases mv with
      | dict m =>
        rw [hm] at h
        simp only [Option.map_eq_some'] at h
        obtain ⟨c, hc, hu⟩ := h
        refine ⟨c, hc, ?_⟩
        subst hu
        have hstrip : stripEntries (Value.dictSet entries "meta"
            (.dict (Value.dictSet m "version" (.str c)))) = stripEntries entries :=
          stripEntries_set_meta m _ entries hm
        have hcalc_u : calculateVersion (Value.dict (Value.dictSet entries "meta"
            (Value.dict (Value.dictSet m "version" (Value.str c))))) = some c := by
          simp only [calculateVersion, deepCopyWithoutVersion, hstrip]
          simpa only [calculateVersion, deepCopyWithoutVersion] using hc
        simp only [verifyVersion, dictLookup_dictSet, Option.getD_some, hcalc_u,
          Option.map_some']
        simp [Value.eqStr]
      | null => rw [hm] at h; simp at h
      | bool b => rw [hm] at h; simp at h
      | int n => rw [hm] at h; simp at h
      | str s => rw [hm] at h; simp at h
      | list l => rw [hm] at h; simp at h
  | null => simp [updateVersion, deepCopyValue_eq] at h
  | bool b => simp [updateVersion, deepCopyValue_eq] at h
  | int n => simp [updateVersion, deepCopyValue_eq] at h
  | str s => simp [updateVersion, deepCopyValue_eq] at h
  | list l => simp [updateVersion, deepCopyValue_eq] at h

/-- Witness for C5 at a concrete document (hash computed by the kernel). -/
theorem verify_after_update_witness :
    ∃ c, calculateVersion
        (.dict [("meta", .dict [("name", .str "t"), ("version", .str "old")]),
                ("x", .int 1)]) = some c ∧
      verifyVersion
        (.dict [("meta", .dict [("name", .str "t"), ("version", .str "7a79641f")]),
                ("x", .int 1)]) = some (true, .str c, c) :=
  verify_after_update
    (.dict [("meta", .dict [("name", .str "t"), ("version", .str "old")]),
            ("x", .int 1)])
    (.dict [("meta", .dict [("name", .str "t"), ("version", .str "7a79641f")]),
            ("x", .int 1)]) (by rfl)

/-- C8: loading a schema-valid document whose stored fingerprint differs
from the recomputed one proceeds (and only reports) by default, but fails
with the version-mismatch error — producing no document — when the loader's
strict mode is enabled. -/
theorem strict_mode_promotes_version_mismatch
    (validate : Value → List String) (d : Value) (source : String)
    (stored : Value) (calcV : String)
    (hv : validate d = [])
    (hm : verifyVersion d = some (false, stored, calcV)) :
    loadDict false validate d source = .ok d ∧
    loadDict true validate d source = .error (.versionMismatch
      ("Version mismatch in " ++ source ++ ": stored=" ++ pyStr stored ++
        ", calculated=" ++ calcV)) := by
  constructor <;> simp [loadDict, hv, hm]

/-- Witness for C8 at a concrete mismatched document. -/
theorem strict_mode_promotes_version_mismatch_witness :
    loadDict false (fun _ => [])
        (.dict [("meta", .dict [("name", .str "x"), ("version", .str "zz")])])
        "<dict>" =
      .ok (.dict [("meta", .dict [("name", .str "x"), ("version", .str "zz")])]) ∧
    loadDict true (fun _ => [])
        (.dict [("meta", .dict [("name", .str "x"), ("version", .str "zz")])])
        "<dict>" =
      .error (.versionMismatch
        "Version mismatch in <dict>: stored=zz, calculated=a85549c8") :=
  strict_mode_promotes_version_mismatch (fun _ => [])
    (.dict [("meta", .dict [("name", .str "x"), ("version", .str "zz")])])
    "<dict>" (.str "zz") "a85549c8" rfl rfl

/-! ## Order theory of the key comparison

Facts about `strLt`/`keyLE` needed to show that sorting by key is blind to
the insertion order of a mapping with distinct keys. -/

theorem char_eq_of_toNat_eq {a b : Char} (h : a.toNat = b.toNat) : a = b := by
  exact_mod_cast Char.ofNat_toNat a ▸ Char.ofNat_toNat b ▸ congrArg Char.ofNat h

theorem charListLt_irrefl : ∀ l : List Char, charListLt l l = false
  | [] => rfl
  | _ :: cs => by simp [charListLt, charListLt_irrefl cs]

theorem charListLt_antisymm : ∀ {l₁ l₂ : List Char},
    charListLt l₁ l₂ = false → charListLt l₂ l₁ = false → l₁ = l₂
  | [], [], _, _ => rfl
  | [], _ :: _, h, _ => by simp [charListLt] at h
  | _ :: _, [], _, h' => by simp [charListLt] at h'
  | a :: as, b :: bs, h, h' => by
    by_cases hab : a.toNat < b.toNat
    · simp [charListLt, hab] at h
    · by_cases hba : b.toNat < a.toNat
      · simp [charListLt, hba] at h'
      · have hs : a = b :=
          char_eq_of_toNat_eq (Nat.le_antisymm (Nat.not_lt.mp hba) (Nat.not_lt.mp hab))
        simp only [charListLt, if_neg hab, if_neg hba] at h
        simp only [charListLt, if_neg hba, if_neg hab] at h'
        rw [hs, charListLt_antisymm h h']

theorem charListLt_cons_iff {a b : Char} {as bs : List Char} :
    charListLt (a :: as) (b :: bs) = true ↔
      a.toNat < b.toNat ∨ (a.toNat = b.toNat ∧ charListLt as bs = true) := by
  by_cases hab : a.toNat < b.toNat
  · simp [charListLt, hab]
  · by_cases hba : b.toNat < a.toNat
    · simp only [charListLt, if_neg hab, if_pos hba]
      constructor
      · intro hfalse; exact absurd hfalse (by simp)
      · intro hor; omega
    · have he : a.toNat = b.toNat := by omega
      simp [charListLt, hab, hba, he]

theorem charListLt_trans : ∀ {l₁ l₂ l₃ : List Char},
    charListLt l₁ l₂ = true → charListLt l₂ l₃ = true → charListLt l₁ l₃ = true
  | _, [], _, h, _ => by simp [charListLt] at h
  | _, _ :: _, [], _, h' => by simp [charListLt] at h'
  | [], _ :: _, _ :: _, _, _ => by simp [charListLt]
  | a :: as, b :: bs, c :: cs, h, h' => by
    rw [charListLt_cons_iff] at h h' ⊢
    rcases h with h | ⟨he, h⟩
    · rcases h' with h' | ⟨he', h'⟩
      · exact .inl (by omega)
      · exact .inl (by omega)
    · rcases h' with h' | ⟨he', h'⟩
      · exact .inl (by omega)
      · exact .inr ⟨by omega, charListLt_trans h h'⟩

theorem charListLt_asymm {l₁ l₂ : List Char}
    (h : charListLt l₁ l₂ = true) : charListLt l₂ l₁ = false := by
  by_contra h'
  have h2 : charListLt l₂ l₁ = true := by
    cases hv : charListLt l₂ l₁ with
    | true => rfl
    | false => exact absurd hv h'
  have := charListLt_trans h h2
  rw [charListLt_irrefl] at this
  exact Bool.false_ne_true this

theorem strLt_antisymm {a b : String} (h : strLt a b = false)
    (h' : strLt b a = false) : a = b := by
  cases a; cases b
  exact congrArg String.mk (charListLt_antisymm h h')

instance keyLE_total {β : Type} : IsTotal (String × β) keyLE := by
  constructor
  intro p q
  cases hv : strLt q.1 p.1 with
  | false => exact .inl hv
  | true => exact .inr (charListLt_asymm hv)

instance keyLE_trans {β : Type} : IsTrans (String × β) keyLE := by
  constructor
  intro p q r h₁ h₂
  unfold keyLE at *
  cases hv : strLt r.1 p.1 with
  | false => rfl
  | true =>
    exfalso
    cases hpq : strLt p.1 q.1 with
    | true =>
      have h2' : charListLt r.1.data q.1.data = false := h₂
      have := charListLt_trans hv hpq
      rw [h2'] at this
      exact Bool.false_ne_true this
    | false =>
      have : p.1 = q.1 := strLt_antisymm hpq h₁
      rw [this] at hv
      rw [h₂] at hv
      exact Bool.false_ne_true hv

/-- Strict key ordering. -/
def keyLt {β : Type} (p q : String × β) : Prop := strLt p.1 q.1 = true

/-- A sorted run over pairwise-distinct keys is strictly sorted. -/
theorem pairwise_keyLt_of_pairwise_keyLE {β : Type} {l : List (String × β)}
    (hs : l.Pairwise keyLE) (hnd : (l.map Prod.fst).Nodup) :
    l.Pairwise keyLt := by
  have hne : l.Pairwise fun p q => p.1 ≠ q.1 := (List.pairwise_map).mp hnd
  refine (hs.and hne).imp ?_
  rintro p q ⟨hle, hne⟩
  cases hv : strLt p.1 q.1 with
  | true => exact hv
  | false => exact absurd (strLt_antisymm hv hle) hne

/-- Two strictly key-sorted lists that are permutations of each other are
equal. -/
theorem eq_of_perm_of_pairwise_keyLt {β : Type} :
    ∀ {l₁ l₂ : List (String × β)}, l₁.Perm l₂ →
      l₁.Pairwise keyLt → l₂.Pairwise keyLt → l₁ = l₂
  | [], l₂, hp, _, _ => hp.nil_eq
  | a :: t, l₂, hp, h₁, h₂ => by
    cases l₂ with
    | nil => simpa using hp.eq_nil
    | cons b t₂ =>
      by_cases hab : a = b
      · subst hab
        rw [eq_of_perm_of_pairwise_keyLt hp.cons_inv h₁.of_cons h₂.of_cons]
      · exfalso
        have ha2 : a ∈ t₂ := by
          have := hp.subset (List.mem_cons_self a t)
          simpa [hab] using this
        have hb1 : b ∈ t := by
          have := hp.symm.subset (List.mem_cons_self b t₂)
          simpa [Ne.symm hab] using this
        have hba : keyLt b a := List.rel_of_pairwise_cons h₂ ha2
        have hab' : keyLt a b := List.rel_of_pairwise_cons h₁ hb1
        have hba2 : charListLt b.1.data a.1.data = true := hba
        have hfalse := @charListLt_asymm a.1.data b.1.data hab'
        rw [hfalse] at hba2
        exact Bool.false_ne_true hba2

/-- Sorting by key is blind to the order of a list with pairwise-distinct
keys: any two permutations of the same entries sort identically. -/
theorem sortByKey_eq_of_perm {β : Type} {l₁ l₂ : List (String × β)}
    (hp : l₁.Perm l₂) (hnd : (l₁.map Prod.fst).Nodup) :
    sortByKey l₁ = sortByKey l₂ := by
  have hperm : (sortByKey l₁).Perm (sortByKey l₂) :=
    ((List.perm_insertionSort keyLE l₁).trans hp).trans
      (List.perm_insertionSort keyLE l₂).symm
  have hnd₁ : ((sortByKey l₁).map Prod.fst).Nodup :=
    ((List.perm_insertionSort keyLE l₁).map Prod.fst).nodup_iff.mpr hnd
  have hnd₂ : ((sortByKey l₂).map Prod.fst).Nodup :=
    (hperm.map Prod.fst).nodup_iff.mp hnd₁
  exact eq_of_perm_of_pairwise_keyLt hperm
    (pairwise_keyLt_of_pairwise_keyLE (List.sorted_insertionSort keyLE l₁) hnd₁)
    (pairwise_keyLt_of_pairwise_keyLE (List.sorted_insertionSort keyLE l₂) hnd₂)

/-! ## Key-order invariance of the fingerprint -/

/-- Pairwise-distinct key list (what Python dictionaries guarantee). -/
def distinctKeys : List String → Bool
  | [] => true
  | k :: rest => !rest.contains k && distinctKeys rest

theorem distinctKeys_iff_nodup : ∀ {l : List String},
    distinctKeys l = true ↔ l.Nodup
  | [] => by simp [distinctKeys]
  | k :: rest => by
    simp [distinctKeys, distinctKeys_iff_nodup (l := rest), List.nodup_cons]

mutual

/-- Every mapping in the tree has pairwise-distinct keys — true of every
document the repository's parsers produce (Python dicts cannot repeat a
key), and assumed explicitly by the ordering theorems. -/
def nodupKeys : Value → Bool
  | .null => true
  | .bool _ => true
  | .int _ => true
  | .str _ => true
  | .list l => nodupKeysList l
  | .dict m => distinctKeys (m.map Prod.fst) && nodupKeysEntries m

def nodupKeysList : List Value → Bool
  | [] => true
  | v :: vs => nodupKeys v && nodupKeysList vs

def nodupKeysEntries : List (String × Value) → Bool
  | [] => true
  | (_, v) :: rest => nodupKeys v && nodupKeysEntries rest

end

mutual

/-- `Reorder d d'`: `d'` carries the same logical content as `d` with
mapping keys in a (possibly) different insertion order at any nesting depth:
scalars are equal, sequences are related pointwise (sequence order is
content), and a mapping's entry list may be permuted after its values are
themselves reordered. -/
inductive Reorder : Value → Value → Prop where
  | null : Reorder .null .null
  | bool (b : Bool) : Reorder (.bool b) (.bool b)
  | int (n : Int) : Reorder (.int n) (.int n)
  | str (s : String) : Reorder (.str s) (.str s)
  | list {l m : List Value} : ReorderList l m → Reorder (.list l) (.list m)
  | dict {l m m' : List (String × Value)} : ReorderEntries l m →
      m.Perm m' → Reorder (.dict l) (.dict m')

/-- Pointwise `Reorder` on sequences. -/
inductive ReorderList : List Value → List Value → Prop where
  | nil : ReorderList [] []
  | cons {v w : Value} {l m : List Value} : Reorder v w → ReorderList l m →
      ReorderList (v :: l) (w :: m)

/-- Pointwise `Reorder` on mapping entries (keys kept in place). -/
inductive ReorderEntries :
    List (String × Value) → List (String × Value) → Prop where
  | nil : ReorderEntries [] []
  | cons {k : String} {v w : Value} {l m : List (String × Value)} :
      Reorder v w → ReorderEntries l m →
      ReorderEntries ((k, v) :: l) ((k, w) :: m)

end

/-- Entrywise reordering keeps the key list. -/
theorem reorderEntries_keys_eq {l m : List (String × Value)}
    (h : ReorderEntries l m) : l.map Prod.fst = m.map Prod.fst := by
  induction l generalizing m with
  | nil => cases h; rfl
  | cons p xs ih =>
    cases h with
    | cons hvw hrest => simpa using ih hrest

theorem sizeOf_lt_of_mem_list {x : Value} {l : List Value} (h : x ∈ l) :
    sizeOf x < sizeOf (Value.list l) := by
  have := List.sizeOf_lt_of_mem h
  simp only [Value.list.sizeOf_spec]
  omega

theorem sizeOf_lt_of_mem_dict {p : String × Value} {l : List (String × Value)}
    (h : p ∈ l) : sizeOf p.2 < sizeOf (Value.dict l) := by
  have h1 := List.sizeOf_lt_of_mem h
  have h2 : sizeOf p.2 < sizeOf p := by
    cases p with
    | mk a b => simp
  simp only [Value.dict.sizeOf_spec]
  omega

theorem jsonSerList_congr {l m : List Value} (hf : ReorderList l m)
    (hnd : nodupKeysList l = true)
    (hmem : ∀ x y, x ∈ l → nodupKeys x = true → Reorder x y →
      jsonSer x = jsonSer y) :
    jsonSerList l = jsonSerList m := by
  induction l generalizing m with
  | nil => cases hf; rfl
  | cons x xs ihl =>
    cases hf with
    | cons hxy hrest =>
      rename_i y ys
      rw [nodupKeysList] at hnd
      simp only [Bool.and_eq_true] at hnd
      rw [jsonSerList, jsonSerList,
        hmem x y (List.mem_cons_self x xs) hnd.1 hxy,
        ihl hrest hnd.2 (fun a b ha => hmem a b (List.mem_cons_of_mem _ ha))]

theorem jsonSerEntries_congr {l m : List (String × Value)}
    (hf : ReorderEntries l m)
    (hnd : nodupKeysEntries l = true)
    (hmem : ∀ p y, p ∈ l → nodupKeys p.2 = true → Reorder p.2 y →
      jsonSer p.2 = jsonSer y) :
    jsonSerEntries l = jsonSerEntries m := by
  induction l generalizing m with
  | nil => cases hf; rfl
  | cons p xs ihl =>
    obtain ⟨k, v⟩ := p
    cases hf with
    | cons hxy hrest =>
      rename_i w ys
      rw [nodupKeysEntries] at hnd
      simp only [Bool.and_eq_true] at hnd
      rw [jsonSerEntries, jsonSerEntries,
        hmem (k, v) w (List.mem_cons_self _ xs) hnd.1 hxy,
        ihl hrest hnd.2 (fun a b ha => hmem a b (List.mem_cons_of_mem _ ha))]

/-- `jsonSerEntries` is entrywise encoding. -/
theorem jsonSerEntries_eq_map : ∀ l : List (String × Value),
    jsonSerEntries l = l.map fun p => (p.1, jsonSer p.2)
  | [] => rfl
  | (k, v) :: rest => by rw [jsonSerEntries, jsonSerEntries_eq_map rest]; rfl

/-- The mapping case of `jsonSer` in the source's own shape: sort the items
by key, then encode `"key":value` for each. -/
theorem jsonSer_dict (entries : List (String × Value)) :
    jsonSer (.dict entries) =
      "\x7b" ++ String.intercalate ","
        ((sortByKey entries).map fun p =>
          jsonQuote p.1 ++ ":" ++ jsonSer p.2) ++ "\x7d" := by
  rw [jsonSer, jsonSerEntries_eq_map, sortByKey_map_keyLE jsonSer entries,
    List.map_map]
  rfl

/-- Canonical serialization is invariant under reordering mapping keys at
any depth, provided every mapping has distinct keys. -/
theorem jsonSer_reorder_aux : ∀ n : Nat, ∀ v w : Value, sizeOf v < n →
    nodupKeys v = true → Reorder v w → jsonSer v = jsonSer w := by
  intro n
  induction n with
  | zero => intro v w h; omega
  | succ n ih =>
    intro v w hsize hnd hro
    cases hro with
    | null => rfl
    | bool b => rfl
    | int k => rfl
    | str s => rfl
    | list hf =>
      rename_i l m
      rw [jsonSer, jsonSer, jsonSerList_congr hf hnd]
      intro x y hx hndx hroxy
      exact ih x y (by
        have := sizeOf_lt_of_mem_list hx
        omega) hndx hroxy
    | dict hf hperm =>
      rename_i l m m'
      rw [nodupKeys] at hnd
      simp only [Bool.and_eq_true] at hnd
      have h1 : jsonSerEntries l = jsonSerEntries m := by
        refine jsonSerEntries_congr hf hnd.2 ?_
        intro p y hp hndp hropy
        exact ih p.2 y (by
          have := sizeOf_lt_of_mem_dict hp
          omega) hndp hropy
      have h2 : (jsonSerEntries m).Perm (jsonSerEntries m') := by
        rw [jsonSerEntries_eq_map, jsonSerEntries_eq_map]
        exact hperm.map _
      have hkeys : ((jsonSerEntries l).map Prod.fst).Nodup := by
        rw [jsonSerEntries_eq_map]
        have : (l.map fun p => (p.1, jsonSer p.2)).map Prod.fst = l.map Prod.fst := by
          simp [List.map_map]
        rw [this]
        exact distinctKeys_iff_nodup.mp hnd.1
      rw [jsonSer, jsonSer, h1, sortByKey_eq_of_perm h2 (h1 ▸ hkeys)]

/-- `jsonSer` is blind to mapping insertion order (wrapper). -/
theorem jsonSer_reorder {v w : Value} (hnd : nodupKeys v = true)
    (hro : Reorder v w) : jsonSer v = jsonSer w :=
  jsonSer_reorder_aux (sizeOf v + 1) v w (by omega) hnd hro

/-- Filtering out the `version` key respects entrywise reordering (the
filter looks only at keys, which reordering preserves). -/
theorem reorderEntries_filter {a b : List (String × Value)}
    (h : ReorderEntries a b) :
    ReorderEntries (a.filter fun q => q.1 != "version")
      (b.filter fun q => q.1 != "version") := by
  induction a generalizing b with
  | nil => cases h; exact .nil
  | cons p xs ih =>
    obtain ⟨k, v⟩ := p
    cases h with
    | cons hvw hrest =>
      rename_i w ys
      by_cases hk : (k != "version") = true
      · simpa [List.filter, hk] using ReorderEntries.cons hvw (ih hrest)
      · simp only [Bool.not_eq_true] at hk
        simpa [List.filter, hk] using ih hrest

/-- One step of the strip loop on `Reorder`-related entries: both fail, or
both succeed with the same key and related values. -/
theorem stripMetaEntry_rel {k : String} {v w : Value} (h : Reorder v w) :
    (stripMetaEntry (k, v) = none ∧ stripMetaEntry (k, w) = none) ∨
    (∃ v' w', stripMetaEntry (k, v) = some (k, v') ∧
      stripMetaEntry (k, w) = some (k, w') ∧ Reorder v' w') := by
  by_cases hk : k = "meta"
  · subst hk
    cases h with
    | null => left; exact ⟨rfl, rfl⟩
    | bool b => left; exact ⟨rfl, rfl⟩
    | int n => left; exact ⟨rfl, rfl⟩
    | str s => left; exact ⟨rfl, rfl⟩
    | list hf => left; exact ⟨rfl, rfl⟩
    | dict hf hperm =>
      rename_i a mid b
      right
      exact ⟨.dict (a.filter fun q => q.1 != "version"),
        .dict (b.filter fun q => q.1 != "version"), rfl, rfl,
        Reorder.dict (reorderEntries_filter hf) (hperm.filter _)⟩
  · right
    exact ⟨deepCopyValue v, deepCopyValue w,
      by simp [stripMetaEntry, hk],
      by simp [stripMetaEntry, hk],
      by rw [deepCopyValue_eq, deepCopyValue_eq]; exact h⟩

/-- The strip loop on entrywise-reordered entry lists: both fail, or both
succeed with entrywise-reordered results. -/
theorem stripEntries_rel {l m : List (String × Value)}
    (hf : ReorderEntries l m) :
    (stripEntries l = none ∧ stripEntries m = none) ∨
    (∃ sl sm, stripEntries l = some sl ∧ stripEntries m = some sm ∧
      ReorderEntries sl sm) := by
  induction l generalizing m with
  | nil => cases hf; right; exact ⟨[], [], rfl, rfl, .nil⟩
  | cons p xs ih =>
    obtain ⟨k, v⟩ := p
    cases hf with
    | cons hvw hrest =>
      rename_i w ys
      rcases stripMetaEntry_rel (k := k) hvw with ⟨h1, h2⟩ | ⟨v', w', h1, h2, hro⟩
      · left
        constructor <;> simp [stripEntries, h1, h2]
      · rcases ih hrest with ⟨h3, h4⟩ | ⟨sl, sm, h3, h4, hrel⟩
        · left
          constructor <;> simp [stripEntries, h1, h2, h3, h4]
        · right
          exact ⟨(k, v') :: sl, (k, w') :: sm,
            by simp [stripEntries, h1, h3],
            by simp [stripEntries, h2, h4],
            .cons hro hrel⟩

/-- The strip loop as a total characterization: it succeeds iff every entry
strips, and then collects the stripped entries in order. -/
theorem stripEntries_eq_filterMap : ∀ l : List (String × Value),
    stripEntries l =
      if l.all (fun p => (stripMetaEntry p).isSome) then
        some (l.filterMap stripMetaEntry)
      else none
  | [] => rfl
  | p :: rest => by
    rcases h : stripMetaEntry p with _ | q
    · simp [stripEntries, h]
    · simp only [stripEntries, h, stripEntries_eq_filterMap rest, List.all_cons,
        Option.isSome_some, Bool.true_and, List.filterMap_cons]
      by_cases hall : rest.all (fun p => (stripMetaEntry p).isSome) = true
      · simp [hall, h]
      · simp only [Bool.not_eq_true] at hall
        simp [hall, h]

/-- The strip loop on permuted entry lists: both fail, or both succeed with
permuted results. -/
theorem stripEntries_perm {m m' : List (String × Value)} (hp : m.Perm m') :
    (stripEntries m = none ∧ stripEntries m' = none) ∨
    (∃ sm sm', stripEntries m = some sm ∧ stripEntries m' = some sm' ∧
      sm.Perm sm') := by
  have hall : m.all (fun p => (stripMetaEntry p).isSome) =
      m'.all (fun p => (stripMetaEntry p).isSome) := by
    rcases hv : m'.all (fun p => (stripMetaEntry p).isSome) with _ | _
    · rw [Bool.eq_false_iff]
      intro hc
      rw [List.all_eq_true] at hc
      rw [Bool.eq_false_iff] at hv
      exact hv (List.all_eq_true.mpr fun x hx => hc x (hp.mem_iff.mpr hx))
    · rw [List.all_eq_true] at hv ⊢
      exact fun x hx => hv x (hp.mem_iff.mp hx)
  rw [stripEntries_eq_filterMap, stripEntries_eq_filterMap, hall]
  by_cases hv : m'.all (fun p => (stripMetaEntry p).isSome) = true
  · rw [hv]
    simp only [if_true]
    exact .inr ⟨_, _, rfl, rfl, hp.filterMap _⟩
  · simp only [Bool.not_eq_true] at hv
    rw [hv]
    simp

/-- Filtering entries keeps every value's key-distinctness. -/
theorem nodupKeysEntries_filter {a : List (String × Value)}
    (h : nodupKeysEntries a = true) :
    nodupKeysEntries (a.filter fun q => q.1 != "version") = true := by
  induction a with
  | nil => simpa using h
  | cons p rest ih =>
    obtain ⟨k, v⟩ := p
    rw [nodupKeysEntries] at h
    simp only [Bool.and_eq_true] at h
    rw [List.filter_cons]
    by_cases hk : (k != "version") = true
    · simp only [hk, if_true]
      rw [nodupKeysEntries]
      simp [h.1, ih h.2]
    · simp only [hk, Bool.false_eq_true, if_false]
      exact ih h.2

/-- A successful strip step keeps the entry's key. -/
theorem stripMetaEntry_key {k : String} {v : Value} {q : String × Value}
    (h : stripMetaEntry (k, v) = some q) : q.1 = k := by
  by_cases hk : k = "meta"
  · subst hk
    cases v with
    | dict a =>
      simp only [stripMetaEntry, if_pos rfl] at h
      injection h with h
      rw [← h]
    | null => simp [stripMetaEntry] at h
    | bool b => simp [stripMetaEntry] at h
    | int n => simp [stripMetaEntry] at h
    | str s => simp [stripMetaEntry] at h
    | list l => simp [stripMetaEntry] at h
  · simp only [stripMetaEntry, if_neg hk, Option.some.injEq] at h
    rw [← h]

/-- A successful strip step keeps the value's key-distinctness. -/
theorem stripMetaEntry_nodup {k : String} {v : Value} {q : String × Value}
    (hnd : nodupKeys v = true) (h : stripMetaEntry (k, v) = some q) :
    nodupKeys q.2 = true := by
  by_cases hk : k = "meta"
  · subst hk
    cases v with
    | dict a =>
      simp only [stripMetaEntry, if_pos rfl] at h
      injection h with h
      rw [← h]
      rw [nodupKeys] at hnd ⊢
      simp only [Bool.and_eq_true] at hnd ⊢
      refine ⟨?_, nodupKeysEntries_filter hnd.2⟩
      rw [distinctKeys_iff_nodup] at hnd ⊢
      exact ((List.filter_sublist a).map Prod.fst).nodup hnd.1
    | null => simp [stripMetaEntry] at h
    | bool b => simp [stripMetaEntry] at h
    | int n => simp [stripMetaEntry] at h
    | str s => simp [stripMetaEntry] at h
    | list l => simp [stripMetaEntry] at h
  · simp only [stripMetaEntry, if_neg hk, Option.some.injEq] at h
    rw [← h]
    simpa [deepCopyValue_eq] using hnd

/-- A successful strip run keeps the key list. -/
theorem stripEntries_keys : ∀ {l sl : List (String × Value)},
    stripEntries l = some sl → sl.map Prod.fst = l.map Prod.fst := by
  intro l
  induction l with
  | nil => intro sl h; simp only [stripEntries, Option.some.injEq] at h; simp [← h]
  | cons p rest ih =>
    intro sl h
    obtain ⟨k, v⟩ := p
    rw [stripEntries] at h
    rcases hq : stripMetaEntry (k, v) with _ | q
    · rw [hq] at h; cases h
    · rw [hq] at h
      rcases hr : stripEntries rest with _ | sr
      · rw [hr] at h; cases h
      · rw [hr] at h
        simp only [Option.map_some', Option.some.injEq] at h
        subst h
        simp [stripMetaEntry_key hq, ih hr]

/-- A successful strip run keeps every value's key-distinctness. -/
theorem nodupKeysEntries_strip : ∀ {l sl : List (String × Value)},
    nodupKeysEntries l = true → stripEntries l = some sl →
    nodupKeysEntries sl = true := by
  intro l
  induction l with
  | nil => intro sl _ h; simp only [stripEntries, Option.some.injEq] at h; simp [← h, nodupKeysEntries]
  | cons p rest ih =>
    intro sl hnd h
    obtain ⟨k, v⟩ := p
    rw [nodupKeysEntries] at hnd
    simp only [Bool.and_eq_true] at hnd
    rw [stripEntries] at h
    rcases hq : stripMetaEntry (k, v) with _ | q
    · rw [hq] at h; cases h
    · rw [hq] at h
      rcases hr : stripEntries rest with _ | sr
      · rw [hr] at h; cases h
      · rw [hr] at h
        simp only [Option.map_some', Option.some.injEq] at h
        subst h
        obtain ⟨qk, qv⟩ := q
        rw [nodupKeysEntries]
        simp only [Bool.and_eq_true]
        exact ⟨stripMetaEntry_nodup hnd.1 hq, ih hnd.2 hr⟩

/-- The version-stripped copy of a distinct-keyed document is itself
distinct-keyed. -/
theorem nodupKeys_stripEntries {l sl : List (String × Value)}
    (hl : nodupKeys (.dict l) = true) (h : stripEntries l = some sl) :
    nodupKeys (.dict sl) = true := by
  rw [nodupKeys] at hl ⊢
  simp only [Bool.and_eq_true] at hl ⊢
  refine ⟨?_, nodupKeysEntries_strip hl.2 h⟩
  rw [stripEntries_keys h]
  exact hl.1

/-- The calculated fingerprint is invariant under reordering mapping keys at
any depth (for documents whose mappings have distinct keys). -/
theorem calculateVersion_reorder {d d' : Value} (hnd : nodupKeys d = true)
    (hro : Reorder d d') : calculateVersion d = calculateVersion d' := by
  cases hro with
  | null => rfl
  | bool b => rfl
  | int n => rfl
  | str s => rfl
  | list hf => rfl
  | dict hf hperm =>
    rename_i l m m'
    rcases stripEntries_rel hf with ⟨h1, h2⟩ | ⟨sl, sm, h1, h2, hrel⟩
    · rcases stripEntries_perm hperm with ⟨h3, h4⟩ | ⟨sm1, sm', h3, h4, hp⟩
      · simp [calculateVersion, deepCopyWithoutVersion, h1, h4]
      · rw [h2] at h3; cases h3
    · rcases stripEntries_perm hperm with ⟨h3, h4⟩ | ⟨sm1, sm', h3, h4, hp⟩
      · rw [h2] at h3; cases h3
      · rw [h2] at h3
        injection h3 with h3
        subst h3
        have hser : jsonSer (.dict sl) = jsonSer (.dict sm') :=
          jsonSer_reorder (nodupKeys_stripEntries hnd h1)
            (Reorder.dict hrel hp)
        simp [calculateVersion, deepCopyWithoutVersion, h1, h4, hser]

/-- Every value `hexChar` produces is a lowercase hex digit. -/
theorem hexChar_mem (n : Nat) : hexChar n ∈ hexDigits := by
  by_cases h : n < 16
  · interval_cases n <;> decide
  · rw [hexChar, List.getD_eq_default]
    · decide
    · simp only [hexDigits, List.length]
      omega

/-- Every character of a word's hex rendering is a lowercase hex digit. -/
theorem wordHex_mem {w : Nat} {c : Char} (h : c ∈ wordHex w) : c ∈ hexDigits := by
  simp only [wordHex, List.mem_cons, List.not_mem_nil, or_false] at h
  rcases h with h | h | h | h | h | h | h | h <;> (subst h; exact hexChar_mem _)

/-- The hex digest has 64 characters. -/
theorem sha256hexList_length (msg : List Nat) :
    (sha256hexList msg).length = 64 := by
  simp [sha256hexList, wordHex]

/-- Every character of the hex digest is a lowercase hex digit. -/
theorem sha256hexList_mem {msg : List Nat} {c : Char}
    (h : c ∈ sha256hexList msg) : c ∈ hexDigits := by
  simp only [sha256hexList, List.mem_append] at h
  rcases h with ((((((h | h) | h) | h) | h) | h) | h) | h <;> exact wordHex_mem h

/-- Any fingerprint `calculate_version` produces is an 8-character string of
lowercase hex digits. -/
theorem calculateVersion_hex {d : Value} {s : String}
    (h : calculateVersion d = some s) :
    s.length = 8 ∧ ∀ c ∈ s.data, c ∈ hexDigits := by
  rw [calculateVersion] at h
  rcases hc : deepCopyWithoutVersion d with _ | copy
  · rw [hc] at h; cases h
  · rw [hc] at h
    simp only [Option.map_some', Option.some.injEq] at h
    subst h
    constructor
    · show (List.take 8 (sha256hexList _)).length = 8
      rw [List.length_take, sha256hexList_length]
      decide
    · intro c hc2
      exact sha256hexList_mem (List.take_subset _ _ hc2)

/-- C7: `calculate_version` is deterministic (repeated evaluation yields the
same result), produces an 8-character lowercase-hexadecimal string, and is
invariant under reordering mapping keys at any nesting depth of a document
whose mappings have distinct keys. -/
theorem calculate_deterministic_and_order_invariant
    (d d' : Value) (hnd : nodupKeys d = true) (hro : Reorder d d') :
    calculateVersion d = calculateVersion d ∧
    calculateVersion d = calculateVersion d' ∧
    (∀ s, calculateVersion d = some s →
      s.length = 8 ∧ ∀ c ∈ s.data, c ∈ hexDigits) :=
  ⟨rfl, calculateVersion_reorder hnd hro, fun _ h => calculateVersion_hex h⟩

/-- Witness for C7: a concrete document against a reordering of it (keys of
`meta` swapped, top-level entries rotated). -/
theorem calculate_deterministic_and_order_invariant_witness :
    calculateVersion (.dict [("meta", .dict [("name", .str "t"), ("version", .str "v")]), ("a", .int 1)]) =
      calculateVersion (.dict [("meta", .dict [("name", .str "t"), ("version", .str "v")]), ("a", .int 1)]) ∧
    calculateVersion (.dict [("meta", .dict [("name", .str "t"), ("version", .str "v")]), ("a", .int 1)]) =
      calculateVersion (.dict [("a", .int 1), ("meta", .dict [("version", .str "v"), ("name", .str "t")])]) ∧
    (∀ s, calculateVersion (.dict [("meta", .dict [("name", .str "t"), ("version", .str "v")]), ("a", .int 1)]) = some s →
      s.length = 8 ∧ ∀ c ∈ s.data, c ∈ hexDigits) :=
  calculate_deterministic_and_order_invariant
    (.dict [("meta", .dict [("name", .str "t"), ("version", .str "v")]), ("a", .int 1)])
    (.dict [("a", .int 1), ("meta", .dict [("version", .str "v"), ("name", .str "t")])])
    rfl
    (Reorder.dict
      (.cons (Reorder.dict
          (.cons (.str "t") (.cons (.str "v") .nil))
          (List.Perm.swap ("version", Value.str "v") ("name", Value.str "t") []))
        (.cons (.int 1) .nil))
      (List.Perm.swap ("a", Value.int 1)
        ("meta", Value.dict [("version", Value.str "v"), ("name", Value.str "t")]) []))

/-! ## `uasp/core/query.py` -/

/-- Characters `str.strip()` removes (ASCII whitespace; the Unicode spaces
Python also strips do not occur in query paths). -/
def isPySpace (c : Char) : Bool :=
  c = ' ' || c = '\t' || c = '\n' || c = '\x0d' || c = '\x0b' || c = '\x0c'

/-- Digit-run parser of Python `int()`: `digit+(_ digit+)*`, i.e. single
underscores strictly between digits.  `acc` is the value so far,
`lastDigit` whether the previous character was a digit (initially false). -/
def pyDigits : List Char → Nat → Bool → Option Nat
  | [], acc, lastDigit => if lastDigit then some acc else none
  | c :: rest, acc, lastDigit =>
    if c.isDigit then pyDigits rest (acc * 10 + (c.toNat - 48)) true
    else if c = '_' && lastDigit then pyDigits rest acc false
    else none

/-- Python `int(segment)` on the strings the query engine sees: optional
surrounding whitespace, an optional sign, ASCII digits with single
underscores between digit groups.  (Python also accepts Unicode digits,
which do not occur in document paths.) -/
def pyParseInt (s : String) : Option Int :=
  let cs := ((s.data.dropWhile isPySpace).reverse.dropWhile isPySpace).reverse
  match cs with
  | '+' :: rest => (pyDigits rest 0 false).map Int.ofNat
  | '-' :: rest => (pyDigits rest 0 false).map fun n => -(Int.ofNat n)
  | rest => (pyDigits rest 0 false).map Int.ofNat

/-- Helper of `path.split(".")`: accumulate the current piece (reversed). -/
def splitDotsGo : List Char → List Char → List String
  | [], acc => [⟨acc.reverse⟩]
  | '.' :: rest, acc => (⟨acc.reverse⟩ : String) :: splitDotsGo rest []
  | c :: rest, acc => splitDotsGo rest (c :: acc)

/-- `path.split(".") if path else []`: Python split on the dot delimiter,
keeping empty pieces; the empty path has no segments. -/
def pySplitDot (path : String) : List String :=
  if path = "" then [] else splitDotsGo path.data []

/-- The `QueryResult` dataclass (`value` defaults to Python `None`). -/
structure QueryResult where
  skill : String
  path : String
  found : Bool
  value : Value := .null
  filters : List (String × String) := []

/-- The sequence-branch predicate of the traversal loop:
`isinstance(x, dict) and (x.get("name") == segment or x.get("id") == segment)`
(exact, case-sensitive string comparison). -/
def nameIdMatch (segment : String) (x : Value) : Bool :=
  match x with
  | .dict m =>
    (match Value.dictLookup m "name" with
     | some v => v.eqStr segment
     | none => false) ||
    (match Value.dictLookup m "id" with
     | some v => v.eqStr segment
     | none => false)
  | _ => false

/-- The traversal loop of `QueryEngine.query`: the resolved value, or `none`
for the not-found result (every not-found branch of the source constructs
the same result). -/
def traverse (cur : Value) : List String → Option Value
  | [] => some cur
  | segment :: rest =>
    match cur with
    | .dict m =>
      match Value.dictLookup m segment with
      | some v => traverse v rest
      | none => none
    | .list items =>
      match items.filter (nameIdMatch segment) with
      | [] =>
        match pyParseInt segment with
        | some idx =>
          if 0 ≤ idx ∧ idx < (items.length : Int) then
            traverse (items.getD idx.toNat .null) rest
          else none
        | none => none
      | [x] => traverse x rest
      | x :: y :: ms => traverse (.list (x :: y :: ms)) rest
    | _ => none

/-! ### `fnmatch`-style glob matching

`_matches_pattern` lowercases both sides and calls `fnmatch.fnmatch`, whose
pattern language has `*`, `?` and bracket character classes `[seq]` /
`[!seq]` with `lo-hi` ranges.  The pattern is tokenized first so that the
matcher is structurally recursive (and therefore computes inside the
kernel); the tokenizer's fuel is the pattern length, which always
suffices because every token consumes at least one character. -/

/-- One member of a bracket class: a literal character or an inclusive
code-point range. -/
inductive ClassItem where
  | lit (c : Char)
  | range (lo hi : Char)

/-- Split a class body at the closing `]`: `(body, rest)`, or `none` when
the class is unterminated (then `fnmatch` treats `[` as a literal). -/
def splitClose (l : List Char) : Option (List Char × List Char) :=
  match l.dropWhile (· ≠ ']') with
  | [] => none
  | _ :: rest => some (l.takeWhile (· ≠ ']'), rest)

/-- Class members: `a-b` is a range when `-` is neither first nor last
(as in the regular expression `fnmatch.translate` emits). -/
def classItemsOf : List Char → List ClassItem
  | [] => []
  | a :: '-' :: b :: rest => .range a b :: classItemsOf rest
  | a :: rest => .lit a :: classItemsOf rest

/-- Parse a bracket class after its `[`, following `fnmatch.translate`: an
optional leading `!` negates; a `]` in the first position of the set is a
literal member; the class extends to the next `]`.  Returns
`(negated, members, rest-of-pattern)`; `none` when no closing `]` exists. -/
def parseClass (cs : List Char) : Option (Bool × List ClassItem × List Char) :=
  let neg := match cs with | '!' :: _ => true | _ => false
  let cs1 := if neg then cs.tail else cs
  match cs1 with
  | ']' :: rest2 =>
    match splitClose rest2 with
    | some (body, rest) => some (neg, classItemsOf (']' :: body), rest)
    | none => none
  | _ =>
    match splitClose cs1 with
    | some (body, rest) => some (neg, classItemsOf body, rest)
    | none => none

/-- Membership of a character in a (possibly negated) class. -/
def classMatch (neg : Bool) (items : List ClassItem) (c : Char) : Bool :=
  let inSet := items.any fun it =>
    match it with
    | .lit a => a == c
    | .range lo hi => lo.toNat ≤ c.toNat && c.toNat ≤ hi.toNat
  if neg then !inSet else inSet

/-- A glob pattern token. -/
inductive GlobToken where
  | star
  | qmark
  | cclass (neg : Bool) (items : List ClassItem)
  | lit (c : Char)

/-- Tokenizer (fuel = remaining pattern length, always sufficient). -/
def tokenizeGlobGo : Nat → List Char → List GlobToken
  | _, [] => []
  | 0, _ :: _ => []
  | fuel + 1, '*' :: ps => .star :: tokenizeGlobGo fuel ps
  | fuel + 1, '?' :: ps => .qmark :: tokenizeGlobGo fuel ps
  | fuel + 1, '[' :: ps =>
    (match parseClass ps with
     | some (neg, items, rest) => .cclass neg items :: tokenizeGlobGo fuel rest
     | none => .lit '[' :: tokenizeGlobGo fuel ps)
  | fuel + 1, c :: ps => .lit c :: tokenizeGlobGo fuel ps

/-- Tokenize a glob pattern. -/
def tokenizeGlob (p : List Char) : List GlobToken := tokenizeGlobGo p.length p

/-- `*` matching: try the continuation on every suffix of the string. -/
def starLoop (k : List Char → Bool) : List Char → Bool
  | [] => k []
  | c :: s' => k (c :: s') || starLoop k s'

/-- Anchored matching of a token list against a string (`fnmatch` semantics:
`*` spans arbitrary substrings including none, `?` exactly one character,
classes one character from the set). -/
def globTokMatch : List GlobToken → List Char → Bool
  | [], s => s.isEmpty
  | .star :: ts, s => starLoop (globTokMatch ts) s
  | .qmark :: ts, s =>
    match s with
    | [] => false
    | _ :: s' => globTokMatch ts s'
  | .cclass neg items :: ts, s =>
    match s with
    | [] => false
    | c :: s' => classMatch neg items c && globTokMatch ts s'
  | .lit p :: ts, s =>
    match s with
    | [] => false
    | c :: s' => (p == c) && globTokMatch ts s'

/-- `fnmatch.fnmatch` (POSIX `normcase` is the identity). -/
def fnmatchB (name pattern : List Char) : Bool :=
  globTokMatch (tokenizeGlob pattern) name

/-- The stringification in `_matches_pattern`: strings pass through, `None`
becomes `""`, anything else is `str(value)`. -/
def stringifyForMatch : Value → String
  | .str s => s
  | .null => ""
  | v => pyStr v

/-- ASCII lowercasing of a string (`str.lower()`; the documents and patterns
in play are ASCII). -/
def lowerChars (s : String) : List Char := s.data.map Char.toLower

/-- `QueryEngine._matches_pattern`: case-insensitive glob match of the
stringified value against the pattern. -/
def matchesPattern (value : Value) (pattern : String) : Bool :=
  fnmatchB (lowerChars (stringifyForMatch value)) (lowerChars pattern)

/-- The body of `_apply_filters`' list comprehension: keep mapping items
whose value at the key (missing key ⇒ `""`) matches the pattern. -/
def filterTest (kp : String × String) (item : Value) : Bool :=
  match item with
  | .dict m => matchesPattern ((Value.dictLookup m kp.1).getD (.str "")) kp.2
  | _ => false

/-- `QueryEngine._apply_filters`: apply every filter in order. -/
def applyFilters (items : List Value) (filters : List (String × String)) :
    List Value :=
  filters.foldl (fun result kp => result.filter (filterTest kp)) items

/-- The skill-name fallback
`skill_dict.get("meta", {}).get("name", "unknown")`.  (For a document whose
`meta` is present but not a mapping the source raises; the theorems below
always pass a non-empty `skill_name`, as the runtime does, so that case is
never taken.) -/
def metaName (skillDict : Value) : String :=
  match skillDict with
  | .dict entries =>
    match (Value.dictLookup entries "meta").getD (.dict []) with
    | .dict m =>
      match Value.dictLookup m "name" with
      | some v => pyStr v
      | none => "unknown"
    | _ => "unknown"
  | _ => "unknown"

/-- `if not skill_name: skill_name = ...` at the top of `query`. -/
def resolveSkillName (skillDict : Value) (skillName : String) : String :=
  if skillName = "" then metaName skillDict else skillName

/-- `QueryEngine.query`. -/
def query (skillDict : Value) (path : String)
    (filters : List (String × String)) (skillName : String) : QueryResult :=
  let name := resolveSkillName skillDict skillName
  let segments := pySplitDot path
  match traverse skillDict segments with
  | none => ⟨name, path, false, .null, filters⟩
  | some current =>
    match current, filters with
    | .list items, _ :: _ =>
      ⟨name, path, true, .list (applyFilters items filters), filters⟩
    | v, _ => ⟨name, path, true, v, filters⟩

/-- Outcome of `query_or_raise` (`pathNotFound` models the raised
`PathNotFoundError` with its arguments). -/
inductive QueryOutcome where
  | ok (value : Value)
  | pathNotFound (path : String) (skill : String)

/-- `QueryEngine.query_or_raise`. -/
def queryOrRaise (skillDict : Value) (path : String)
    (filters : List (String × String)) (skillName : String) : QueryOutcome :=
  let result := query skillDict path filters skillName
  if result.found then .ok result.value
  else .pathNotFound path (if skillName = "" then "unknown" else skillName)

/-- C2: traversal at a sequence with a segment remaining.  Exactly one
mapping element whose `name` or `id` equals the segment (exactly,
case-sensitively) ⇒ descend into it; more than one ⇒ descend into the list
of all matches; none ⇒ the segment is parsed as an integer index and any
parse failure, negative index or out-of-bounds index is not-found. -/
theorem traverse_sequence_cases (items : List Value) (segment : String)
    (rest : List String) :
    (∀ x, items.filter (nameIdMatch segment) = [x] →
      traverse (.list items) (segment :: rest) = traverse x rest) ∧
    (∀ x y ms, items.filter (nameIdMatch segment) = x :: y :: ms →
      traverse (.list items) (segment :: rest) =
        traverse (.list (x :: y :: ms)) rest) ∧
    (items.filter (nameIdMatch segment) = [] →
      (∀ i : Int, pyParseInt segment = some i → 0 ≤ i →
        i < (items.length : Int) →
        traverse (.list items) (segment :: rest) =
          traverse (items.getD i.toNat .null) rest) ∧
      (∀ i : Int, pyParseInt segment = some i →
        (i < 0 ∨ (items.length : Int) ≤ i) →
        traverse (.list items) (segment :: rest) = none) ∧
      (pyParseInt segment = none →
        traverse (.list items) (segment :: rest) = none)) := by
  refine ⟨?_, ?_, ?_⟩
  · intro x hx
    simp [traverse, hx]
  · intro x y ms hx
    simp [traverse, hx]
  · intro hempty
    refine ⟨?_, ?_, ?_⟩
    · intro i hi h0 hlen
      have hc : 0 ≤ i ∧ i < (items.length : Int) := ⟨h0, hlen⟩
      simp [traverse, hempty, hi, hc]
    · intro i hi hout
      have hc : ¬(0 ≤ i ∧ i < (items.length : Int)) := by omega
      simp [traverse, hempty, hi, hc]
    · intro hi
      simp [traverse, hempty, hi]

/-- Witness for C2, the spec's scenario: the list
`[{"name":"session"},{"name":"data"}]` at segment `"session"` resolves to
the single matching element; at `"5"` (no name match, index out of range)
it is not-found. -/
theorem traverse_sequence_cases_witness :
    traverse (.list [.dict [("name", .str "session")],
        .dict [("name", .str "data")]]) ["session"] =
      traverse (.dict [("name", .str "session")]) [] ∧
    traverse (.list [.dict [("name", .str "session")],
        .dict [("name", .str "data")]]) ["5"] = none :=
  ⟨(traverse_sequence_cases [.dict [("name", .str "session")],
      .dict [("name", .str "data")]] "session" []).1 _ rfl,
   ((traverse_sequence_cases [.dict [("name", .str "session")],
      .dict [("name", .str "data")]] "5" []).2.2 rfl).2.1 5 rfl
     (.inr (by decide))⟩

/-! ### The query engine does not mutate the document (C10)

The Python loop only reads: re-rendering it with the document threaded
through every step as explicit state, each branch returns the document
exactly as received, and the filter stage builds new lists
(`List.filter` of the input) instead of modifying stored ones. -/

/-- The traversal loop with the document as explicit threaded state. -/
def traverseM (doc : Value) (cur : Value) : List String → Option Value × Value
  | [] => (some cur, doc)
  | segment :: rest =>
    match cur with
    | .dict m =>
      match Value.dictLookup m segment with
      | some v => traverseM doc v rest
      | none => (none, doc)
    | .list items =>
      match items.filter (nameIdMatch segment) with
      | [] =>
        match pyParseInt segment with
        | some idx =>
          if 0 ≤ idx ∧ idx < (items.length : Int) then
            traverseM doc (items.getD idx.toNat .null) rest
          else (none, doc)
        | none => (none, doc)
      | [x] => traverseM doc x rest
      | x :: y :: ms => traverseM doc (.list (x :: y :: ms)) rest
    | _ => (none, doc)

/-- `QueryEngine.query` with the document as explicit threaded state. -/
def queryM (skillDict : Value) (path : String)
    (filters : List (String × String)) (skillName : String) :
    QueryResult × Value :=
  let name := resolveSkillName skillDict skillName
  let segments := pySplitDot path
  match traverseM skillDict skillDict segments with
  | (none, doc) => (⟨name, path, false, .null, filters⟩, doc)
  | (some current, doc) =>
    match current, filters with
    | .list items, _ :: _ =>
      (⟨name, path, true, .list (applyFilters items filters), filters⟩, doc)
    | v, _ => (⟨name, path, true, v, filters⟩, doc)

/-- `QueryEngine.query_or_raise` with the document as explicit state. -/
def queryOrRaiseM (skillDict : Value) (path : String)
    (filters : List (String × String)) (skillName : String) :
    QueryOutcome × Value :=
  match queryM skillDict path filters skillName with
  | (result, doc) =>
    if result.found then (.ok result.value, doc)
    else (.pathNotFound path (if skillName = "" then "unknown" else skillName),
      doc)

/-- The threaded traversal returns the document untouched and computes the
same result as the pure traversal. -/
theorem traverseM_spec (doc : Value) : ∀ (segs : List String) (cur : Value),
    traverseM doc cur segs = (traverse cur segs, doc) := by
  intro segs
  induction segs with
  | nil => intro cur; rfl
  | cons seg rest ih =>
    intro cur
    cases cur with
    | dict m =>
      rcases h : Value.dictLookup m seg with _ | v <;>
        simp [traverseM, traverse, h, ih]
    | list items =>
      rcases hf : items.filter (nameIdMatch seg) with _ | ⟨x, _ | ⟨y, ms⟩⟩
      · rcases hp : pyParseInt seg with _ | i
        · simp [traverseM, traverse, hf, hp]
        · by_cases hc : 0 ≤ i ∧ i < (items.length : Int)
          · simp [traverseM, traverse, hf, hp, hc, ih]
          · simp [traverseM, traverse, hf, hp, hc]
      · simp [traverseM, traverse, hf, ih]
      · simp [traverseM, traverse, hf, ih]
    | null => simp [traverseM, traverse]
    | bool b => simp [traverseM, traverse]
    | int n => simp [traverseM, traverse]
    | str s => simp [traverseM, traverse]

/-- Sequential filtering is one pass keeping the items that pass every
filter: a fresh `List.filter` of the input list. -/
theorem applyFilters_eq_filter : ∀ (fs : List (String × String))
    (items : List Value),
    applyFilters items fs =
      items.filter fun item => fs.all fun kp => filterTest kp item := by
  intro fs
  induction fs with
  | nil => intro items; simp [applyFilters]
  | cons kp fs ih =>
    intro items
    show applyFilters (items.filter (filterTest kp)) fs = _
    rw [ih, List.filter_filter]
    simp only [List.all_cons]
    exact List.filter_congr fun a _ => Bool.and_comm _ _

/-- C10: `query` (and `query_or_raise`) never mutates the input document —
in the explicit-state rendering of the source the document comes back
unchanged for every path and filter set, the result agrees with the pure
function, and the filter stage is a fresh `List.filter` of the input
sequence. -/
theorem query_never_mutates (d : Value) (path : String)
    (filters : List (String × String)) (skillName : String) :
    (queryM d path filters skillName).2 = d ∧
    (queryM d path filters skillName).1 = query d path filters skillName ∧
    (queryOrRaiseM d path filters skillName).2 = d ∧
    (∀ items fs, applyFilters items fs =
      items.filter fun item => fs.all fun kp => filterTest kp item) := by
  have hq : queryM d path filters skillName =
      (query d path filters skillName, d) := by
    rw [queryM, query, traverseM_spec]
    rcases h : traverse d (pySplitDot path) with _ | current
    · rfl
    · cases current <;> cases filters <;> rfl
  refine ⟨by rw [hq], by rw [hq], ?_, fun items fs => applyFilters_eq_filter fs items⟩
  rw [queryOrRaiseM, hq]
  by_cases h : (query d path filters skillName).found <;> simp [h]

/-! ### Filters (C4) -/

/-- Modelled from the claim's words, for the refutation only: glob matching
in which `*` (arbitrary substring) and `?` (single character) are the only
special characters — "no other qualifiers" — and everything else, brackets
included, matches literally. -/
def claimGlobMatch : List Char → List Char → Bool
  | [], s => s.isEmpty
  | '*' :: ps, s => starLoop (claimGlobMatch ps) s
  | '?' :: ps, s =>
    match s with
    | [] => false
    | _ :: s' => claimGlobMatch ps s'
  | p :: ps, s =>
    match s with
    | [] => false
    | c :: s' => (p == c) && claimGlobMatch ps s'

/-- The claim's version of `_matches_pattern` (case-insensitive, `*`/`?`
only). -/
def claimMatchesPattern (value : Value) (pattern : String) : Bool :=
  claimGlobMatch (lowerChars pattern) (lowerChars (stringifyForMatch value))

/-- C4 counterexample: on the pattern `[ab]` the code's `fnmatch` honours
the bracket character class — the element whose value is `"a"` is kept by
the filter — whereas matching with only `*` and `?` special, as the claim
states, would reject it (`"[ab]"` read literally).  So "no other
qualifiers" is false of the code. -/
theorem query_filters_counterexample :
    applyFilters [.dict [("k", .str "a")]] [("k", "[ab]")] =
      [.dict [("k", .str "a")]] ∧
    matchesPattern (.str "a") "[ab]" = true ∧
    claimMatchesPattern (.str "a") "[ab]" = false :=
  ⟨rfl, rfl, rfl⟩

/-- C4 as amended: after traversal, a non-empty filters mapping applied to a
sequence result keeps, filter by filter in order, only the mapping elements
whose stringified value at the filter key (missing key ⇒ `""`)
case-insensitively matches the pattern under `fnmatch` semantics — `*`, `?`
and bracket character classes; filters on a non-sequence result (or an
empty filters mapping) are silently ignored and the result is reported
found with the unfiltered value. -/
theorem query_filters_amended (d : Value) (path : String)
    (filters : List (String × String)) (name : String) (hname : name ≠ "")
    (v : Value)
    (ht : traverse d (pySplitDot path) = some v) :
    (∀ items, v = .list items → filters ≠ [] →
      query d path filters name =
        ⟨name, path, true, .list (applyFilters items filters), filters⟩) ∧
    (∀ items, applyFilters items filters =
      items.filter fun item => filters.all fun kp => filterTest kp item) ∧
    ((∀ items, v ≠ .list items) →
      query d path filters name = ⟨name, path, true, v, filters⟩) ∧
    (filters = [] →
      query d path filters name = ⟨name, path, true, v, filters⟩) := by
  refine ⟨?_, fun items => applyFilters_eq_filter filters items, ?_, ?_⟩
  · rintro items rfl hf
    rcases filters with _ | ⟨kp, fs⟩
    · exact absurd rfl hf
    · simp [query, resolveSkillName, hname, ht]
  · intro hnl
    rcases hv : v with _ | _ | _ | _ | items | _ <;>
      first
        | (exact absurd rfl (hv ▸ hnl _))
        | (rcases filters with _ | ⟨kp, fs⟩ <;>
            simp [query, resolveSkillName, hname, ht, hv])
  · rintro rfl
    rcases hv : v with _ | _ | _ | _ | items | _ <;>
      simp [query, resolveSkillName, hname, ht, hv]

/-- Witness for C4 (amended), the spec's scenario: the filter
`{"when": "*condition A*"}` on the decisions list keeps exactly the first
element. -/
theorem query_filters_amended_witness :
    query (.dict [("decisions", .list
        [.dict [("when", .str "condition A"), ("then", .str "x")],
         .dict [("when", .str "condition B"), ("then", .str "y")]])])
      "decisions" [("when", "*condition A*")] "stripe" =
    ⟨"stripe", "decisions", true,
      .list [.dict [("when", .str "condition A"), ("then", .str "x")]],
      [("when", "*condition A*")]⟩ :=
  ((query_filters_amended
      (.dict [("decisions", .list
        [.dict [("when", .str "condition A"), ("then", .str "x")],
         .dict [("when", .str "condition B"), ("then", .str "y")]])])
      "decisions" [("when", "*condition A*")] "stripe" (by decide)
      (.list [.dict [("when", .str "condition A"), ("then", .str "x")],
              .dict [("when", .str "condition B"), ("then", .str "y")]])
      rfl).1
    [.dict [("when", .str "condition A"), ("then", .str "x")],
     .dict [("when", .str "condition B"), ("then", .str "y")]]
    rfl (by decide)).trans (by rfl)

/-! ## `uasp/runtime/state_manager.py` -/

/-- Generic first-match association lookup (Python dict access for the
argument and entity maps). -/
def assocLookup {α : Type} : List (String × α) → String → Option α
  | [], _ => none
  | (k, v) :: rest, key => if k = key then some v else assocLookup rest key

/-- Generic Python dict assignment: overwrite in place or append. -/
def assocSet {α : Type} : List (String × α) → String → α → List (String × α)
  | [], key, v => [(key, v)]
  | (k, w) :: rest, key, v =>
    if k = key then (k, v) :: rest else (k, w) :: assocSet rest key v

/-- The `StateEntity` dataclass (`value` starts as Python `None`, modelled
`none`; `valid` starts false). -/
structure StateEntity where
  name : String
  value : Option Value := none
  valid : Bool := false

/-- A `StateManager`: the owning skill dictionary plus the entity map
(keyed by entity name, insertion order preserved). -/
structure StateMgr where
  skill : Value
  entities : List (String × StateEntity)

/-- `skill.get(key, [])` for list-valued sections. -/
def getListField (v : Value) (key : String) : List Value :=
  match v with
  | .dict l =>
    match Value.dictLookup l key with
    | some (.list xs) => xs
    | _ => []
  | _ => []

/-- `StateManager._initialize_entities`: declared entities start invalid
with no value.  (The source indexes `entity_def["name"]` directly and would
raise on entries without a string name; such entries cannot occur in
schema-valid skills and are skipped here.) -/
def initEntities (skill : Value) : List (String × StateEntity) :=
  let stateSection :=
    match skill with
    | .dict l => (Value.dictLookup l "state").getD (.dict [])
    | _ => .dict []
  (getListField stateSection "entities").foldl
    (fun acc d =>
      match d with
      | .dict ed =>
        match Value.dictLookup ed "name" with
        | some (.str n) => assocSet acc n ⟨n, none, false⟩
        | _ => acc
      | _ => acc)
    []

/-- `StateManager.create`: create the entity if absent, then set its value
and mark it valid. -/
def createEnt (entities : List (String × StateEntity)) (name : String)
    (value : Option Value) : List (String × StateEntity) :=
  assocSet entities name ⟨name, value, true⟩

/-- `StateManager.invalidate`: clear validity of an existing entity (value
retained); unknown names are ignored. -/
def invalidateEnt (entities : List (String × StateEntity)) (name : String) :
    List (String × StateEntity) :=
  match assocLookup entities name with
  | some e => assocSet entities name ⟨e.name, e.value, false⟩
  | none => entities

/-- `StateManager.is_valid`: the entity exists and is valid. -/
def isValidEnt (entities : List (String × StateEntity)) (name : String) :
    Bool :=
  match assocLookup entities name with
  | some e => e.valid
  | none => false

/-- `skill.get("commands", {}).get(command_name)` (no default: `None` when
absent).  A non-mapping `commands` section would raise in the source and
cannot occur in schema-valid skills. -/
def getCommandDef (skill : Value) (commandName : String) : Option Value :=
  match skill with
  | .dict l =>
    match (Value.dictLookup l "commands").getD (.dict []) with
    | .dict c => Value.dictLookup c commandName
    | _ => none
  | _ => none

/-- `skill.get("commands", {}).get(command_name, {})` (empty-dict default),
as `check_requires` and `apply_effects` read it. -/
def getCommandDefD (skill : Value) (commandName : String) : Value :=
  (getCommandDef skill commandName).getD (.dict [])

/-- `cmd.get("requires", [])`.  (A non-list `requires` would be iterated
as-is by Python; schema-valid skills always use lists.) -/
def getRequires (cmd : Value) : List Value :=
  getListField cmd "requires"

/-- `self.is_valid(req)` on a raw requires entry: only a string naming a
valid entity passes (a non-string entry is never a key of the entity map,
exactly as in Python where `entities.get(req)` then misses). -/
def isValidReq (entities : List (String × StateEntity)) (req : Value) : Bool :=
  match req with
  | .str s => isValidEnt entities s
  | _ => false

/-- `StateManager.check_requires`: the declared requires entries that are
not currently valid, in declaration order. -/
def checkRequires (st : StateMgr) (commandName : String) : List Value :=
  (getRequires (getCommandDefD st.skill commandName)).filter
    fun req => !isValidReq st.entities req

/-- `StateManager.apply_effects`: every `creates` entry becomes valid with
the execution result as value, every `invalidates` entry becomes invalid.
(Non-string entries cannot occur in schema-valid skills.) -/
def applyEffects (st : StateMgr) (commandName : String) (result : Value) :
    StateMgr :=
  let cmd := getCommandDefD st.skill commandName
  let e1 := (getListField cmd "creates").foldl
    (fun acc ent =>
      match ent with
      | .str n => createEnt acc n (some result)
      | _ => acc)
    st.entities
  let e2 := (getListField cmd "invalidates").foldl
    (fun acc ent =>
      match ent with
      | .str n => invalidateEnt acc n
      | _ => acc)
    e1
  ⟨st.skill, e2⟩

/-! ## `uasp/runtime/executor.py` -/

/-- `ExecutionResult` dataclass. -/
structure ExecutionResult where
  success : Bool
  stdout : String
  stderr : String
  returncode : Int
  command : String

/-- Behaviours of the external process collaborator (`subprocess.run`):
normal completion, `TimeoutExpired` (with the partial stdout the exception
carries, `e.stdout or ""`), or any other exception with its message. -/
inductive ProcResult where
  | completed (returncode : Int) (stdout stderr : String)
  | timedOut (stdout : Option String)
  | failed (message : String)

/-- What one `execute` call does: return an `ExecutionResult`, or raise
`InvalidStateError(missing[0], missing=missing)`. -/
inductive ExecOutcome where
  | result (r : ExecutionResult)
  | invalidState (entity : Value) (missing : List Value)

/-- Whether the outcome is a returned result with `success=True`. -/
def isSuccessResult : ExecOutcome → Bool
  | .result r => r.success
  | .invalidState _ _ => false

/-- Python `str.strip()` (ASCII whitespace). -/
def pyStrip (s : String) : String :=
  ⟨((s.data.dropWhile isPySpace).reverse.dropWhile isPySpace).reverse⟩

/-- `flag_name.lstrip("-")`. -/
def lstripDashes (s : String) : String := ⟨s.data.dropWhile (· = '-')⟩

/-- Python `str.replace` (all non-overlapping occurrences, left to right);
fuel is the haystack length, sufficient because every step consumes at
least one character (the needles here are never empty). -/
def replaceAllGo : Nat → List Char → List Char → List Char → List Char
  | _, [], _, _ => []
  | 0, hay, _, _ => hay
  | fuel + 1, c :: rest, needle, repl =>
    if needle.isPrefixOf (c :: rest) && !needle.isEmpty then
      repl ++ replaceAllGo fuel ((c :: rest).drop needle.length) needle repl
    else c :: replaceAllGo fuel rest needle repl

/-- Python `s.replace(needle, repl)`. -/
def replaceAll (s needle repl : String) : String :=
  ⟨replaceAllGo s.data.length s.data needle.data repl.data⟩

/-- The characters `shlex.quote` leaves unquoted: ASCII alphanumerics,
underscore, and `@ % + = : , .` plus slash and dash. -/
def shlexSafe (c : Char) : Bool :=
  c.isAlphanum || c = '_' || c = '@' || c = '%' || c = '+' || c = '=' ||
  c = ':' || c = ',' || c = '.' || c = '/' || c = '-'

/-- `shlex.quote`. -/
def shlexQuote (s : String) : String :=
  if s = "" then "''"
  else if s.data.all shlexSafe then s
  else "'" ++ replaceAll s "'" "'\"'\"'" ++ "'"

/-- String field of a spec mapping (the source indexes `flag["name"]` etc.
directly and raises on malformed specs, which schema-valid skills rule
out; the default is never exercised there). -/
def fieldStrD (v : Value) (key : String) (dflt : String) : String :=
  match v with
  | .dict l =>
    match Value.dictLookup l key with
    | some w => pyStr w
    | none => dflt
  | _ => dflt

/-- `flag.get(key) or fallback` (Python `or`: falsy values fall back). -/
def pyOrStrField (flag : Value) (key : String) (fallback : String) : String :=
  match flag with
  | .dict l =>
    match Value.dictLookup l key with
    | some v => if Value.pyTruthy v then pyStr v else fallback
    | none => fallback
  | _ => fallback

/-- `flag["type"] == "bool"`. -/
def flagTypeIsBool (flag : Value) : Bool :=
  match flag with
  | .dict l =>
    match Value.dictLookup l "type" with
    | some v => v.eqStr "bool"
    | none => false
  | _ => false

/-- One global-flag application in `_build_command`. -/
def applyGlobalFlag (args : List (String × Value)) (syn : String)
    (flag : Value) : String :=
  let flagName := fieldStrD flag "name" ""
  match assocLookup args (lstripDashes flagName) with
  | none => syn
  | some value =>
    if flagTypeIsBool flag then
      if Value.pyTruthy value then syn ++ " " ++ flagName else syn
    else syn ++ " " ++ flagName ++ " " ++ shlexQuote (pyStr value)

/-- One command-flag application in `_build_command` (`long` preferred for
the key, `short` preferred for an emitted boolean flag). -/
def applyCmdFlag (args : List (String × Value)) (syn : String)
    (flag : Value) : String :=
  let flagName := pyOrStrField flag "long" (fieldStrD flag "name" "")
  match assocLookup args (lstripDashes flagName) with
  | none => syn
  | some value =>
    if flagTypeIsBool flag then
      if Value.pyTruthy value then
        syn ++ " " ++ pyOrStrField flag "short" flagName
      else syn
    else syn ++ " " ++ flagName ++ " " ++ shlexQuote (pyStr value)

/-- One positional-argument substitution in `_build_command` (lists join
their individually quoted elements with spaces; an unsupplied argument is
replaced by its declared default when that is not `None`). -/
def applyPosArg (args : List (String × Value)) (syn : String)
    (argSpec : Value) : String :=
  let argName := fieldStrD argSpec "name" ""
  let placeholder := "<" ++ argName ++ ">"
  match assocLookup args argName with
  | some value =>
    let rendered :=
      match value with
      | .list items =>
        String.intercalate " " (items.map fun v => shlexQuote (pyStr v))
      | v => shlexQuote (pyStr v)
    replaceAll syn placeholder rendered
  | none =>
    match argSpec with
    | .dict l =>
      match Value.dictLookup l "default" with
      | some .null => syn
      | some dv => replaceAll syn placeholder (shlexQuote (pyStr dv))
      | none => syn
    | _ => syn

/-- Try the regex `\s*<[^>]+>` at the current position: a whitespace run,
`<`, at least one non-`>` character, `>`.  Returns the rest after the
match. -/
def matchPh (cs : List Char) : Option (List Char) :=
  match cs.dropWhile isPySpace with
  | '<' :: r2 =>
    match r2 with
    | [] => none
    | d :: _ =>
      if d = '>' then none
      else
        match r2.dropWhile (· ≠ '>') with
        | _ :: tail => some tail
        | [] => none
  | _ => none

/-- `re.sub(r"\s*<[^>]+>", "", s)`: non-overlapping leftmost matches
removed (fuel = length; every step consumes at least one character). -/
def stripPhGo : Nat → List Char → List Char
  | _, [] => []
  | 0, cs => cs
  | fuel + 1, c :: cs =>
    match matchPh (c :: cs) with
    | some rest => stripPhGo fuel rest
    | none => c :: stripPhGo fuel cs

/-- The content of a bracket block contains a complete `<...>` placeholder
(at least one non-`>` character between `<` and the first `>` after it). -/
def containsPh : List Char → Bool
  | [] => false
  | c :: rest =>
    (c = '<' && !rest.isEmpty && (rest.headD ' ' != '>') &&
      !(rest.dropWhile (· ≠ '>')).isEmpty)
    || containsPh rest

/-- Try the regex `\s*\[[^\]]*<[^>]+>[^\]]*\]` at the current position: a
whitespace run, `[`, then up to the next `]` a body containing a complete
placeholder. -/
def matchOpt (cs : List Char) : Option (List Char) :=
  match cs.dropWhile isPySpace with
  | '[' :: r2 =>
    match r2.dropWhile (· ≠ ']') with
    | _ :: tail =>
      if containsPh (r2.takeWhile (· ≠ ']')) then some tail else none
    | [] => none
  | _ => none

/-- `re.sub(r"\s*\[[^\]]*<[^>]+>[^\]]*\]", "", s)`. -/
def stripOptGo : Nat → List Char → List Char
  | _, [] => []
  | 0, cs => cs
  | fuel + 1, c :: cs =>
    match matchOpt (c :: cs) with
    | some rest => stripOptGo fuel rest
    | none => c :: stripOptGo fuel cs

/-- `CommandExecutor._build_command`: start from the syntax template, apply
global flags, apply command flags, substitute positional arguments, remove
unfilled optional bracket blocks and unfilled placeholders, and strip. -/
def buildCommand (skill cmdDef : Value) (args : List (String × Value)) :
    String :=
  let s1 := (getListField skill "global_flags").foldl
    (applyGlobalFlag args) (fieldStrD cmdDef "syntax" "")
  let s2 := (getListField cmdDef "flags").foldl (applyCmdFlag args) s1
  let s3 := (getListField cmdDef "args").foldl (applyPosArg args) s2
  let s4 : String := ⟨stripOptGo s3.data.length s3.data⟩
  let s5 : String := ⟨stripPhGo s4.data.length s4.data⟩
  pyStrip s5

/-- Rendering of the timeout in the timeout message (`f"...after {timeout}s"`;
timeouts are carried as whole seconds here, `None` prints as Python does). -/
def timeoutStr : Option Nat → String
  | some n => toString n
  | none => "None"

/-- `CommandExecutor.execute`, with the external process collaborator
supplied as the oracle `proc` (mapping the built command string and timeout
to one of the three `subprocess.run` behaviours). -/
def execute (skill : Value) (st : StateMgr) (commandPath : String)
    (args : List (String × Value)) (dryRun : Bool) (timeout : Option Nat)
    (proc : String → Option Nat → ProcResult) : ExecOutcome × StateMgr :=
  match getCommandDef skill commandPath with
  | none =>
    (.result ⟨false, "", "Unknown command: " ++ commandPath, 1, ""⟩, st)
  | some cmdDef =>
    if Value.pyTruthy cmdDef = false then
      (.result ⟨false, "", "Unknown command: " ++ commandPath, 1, ""⟩, st)
    else
      match checkRequires st commandPath with
      | m :: ms => (.invalidState m (m :: ms), st)
      | [] =>
        let cmdStr := buildCommand skill cmdDef args
        if dryRun then
          (.result ⟨true, "[DRY RUN] Would execute: " ++ cmdStr, "", 0,
            cmdStr⟩, st)
        else
          match proc cmdStr timeout with
          | .completed rc out err =>
            let success := rc == 0
            let st' :=
              if success then applyEffects st commandPath (.str out) else st
            (.result ⟨success, out, err, rc, cmdStr⟩, st')
          | .timedOut outOpt =>
            (.result ⟨false, outOpt.getD "",
              "Command timed out after " ++ timeoutStr timeout ++ "s", -1,
              cmdStr⟩, st)
          | .failed msg => (.result ⟨false, "", msg, -1, cmdStr⟩, st)

/-- C9: a command whose definition is present in the commands mapping but
falsy (for example an empty mapping) is treated exactly like an unknown
command name — `execute` returns success=false, returncode 1 and the
"Unknown command" message without building or running anything (and without
touching the state), because the definition lookup is tested for truthiness
(`if not cmd_def`) rather than key presence. -/
theorem falsy_command_is_unknown (skill : Value) (st : StateMgr)
    (commandPath : String) (args : List (String × Value)) (dryRun : Bool)
    (timeout : Option Nat) (proc : String → Option Nat → ProcResult)
    (h : ∀ cd, getCommandDef skill commandPath = some cd →
      Value.pyTruthy cd = false) :
    execute skill st commandPath args dryRun timeout proc =
      (.result ⟨false, "", "Unknown command: " ++ commandPath, 1, ""⟩, st) ∧
    (∀ skill2 : Value, getCommandDef skill2 commandPath = some (.dict []) →
      Value.pyTruthy (Value.dict []) = false) := by
  refine ⟨?_, fun _ _ => rfl⟩
  rcases hcd : getCommandDef skill commandPath with _ | cd
  · rw [execute, hcd]
  · rw [execute, hcd]
    simp [h cd hcd]

/-- Witness for C9: a skill whose commands mapping binds `"c"` to the empty
mapping gives the unknown-command result, just as a skill without the
command does. -/
theorem falsy_command_is_unknown_witness :
    execute (.dict [("commands", .dict [("c", .dict [])])])
        ⟨.dict [("commands", .dict [("c", .dict [])])], []⟩ "c" [] false none
        (fun _ _ => .completed 0 "out" "") =
      (.result ⟨false, "", "Unknown command: c", 1, ""⟩,
        ⟨.dict [("commands", .dict [("c", .dict [])])], []⟩) ∧
    (∀ skill2 : Value, getCommandDef skill2 "c" = some (.dict []) →
      Value.pyTruthy (Value.dict []) = false) :=
  falsy_command_is_unknown (.dict [("commands", .dict [("c", .dict [])])])
    ⟨.dict [("commands", .dict [("c", .dict [])])], []⟩ "c" [] false none
    (fun _ _ => .completed 0 "out" "")
    (fun cd hcd => by
      rw [show getCommandDef (.dict [("commands", .dict [("c", .dict [])])])
          "c" = some (.dict []) from rfl] at hcd
      injection hcd with hcd
      rw [← hcd]
      rfl)

/-- C6: when some entity in the command's declared requires list is not
valid at call time, `execute` raises `InvalidStateError` carrying the first
missing entry and the full missing list (the invalid requires entries in
declaration order), before any external process is invoked (the outcome is
the same for every `proc` oracle and every `dry_run`) and without applying
any state effects (the state comes back exactly as passed). -/
theorem requires_unmet_raises (skill : Value) (st : StateMgr)
    (commandPath : String) (args : List (String × Value)) (dryRun : Bool)
    (timeout : Option Nat) (proc : String → Option Nat → ProcResult)
    (cmdDef : Value)
    (hcd : getCommandDef skill commandPath = some cmdDef)
    (htruthy : Value.pyTruthy cmdDef = true)
    (r : Value) (hr : r ∈ getRequires (getCommandDefD st.skill commandPath))
    (hinvalid : isValidReq st.entities r = false) :
    ∃ m ms, checkRequires st commandPath = m :: ms ∧
      execute skill st commandPath args dryRun timeout proc =
        (.invalidState m (m :: ms), st) := by
  have hmem : r ∈ checkRequires st commandPath :=
    List.mem_filter.mpr ⟨hr, by simp [hinvalid]⟩
  rcases hm : checkRequires st commandPath with _ | ⟨m, ms⟩
  · rw [hm] at hmem; cases hmem
  · refine ⟨m, ms, rfl, ?_⟩
    rw [execute, hcd]
    simp [htruthy, hm]

/-- Witness for C6, the spec's scenario: a command requiring `session`
executed before `session` is created raises `InvalidStateError` listing
`"session"`. -/
theorem requires_unmet_raises_witness :
    ∃ m ms,
      checkRequires
          ⟨.dict [("commands", .dict [("c", .dict [("syntax", .str "run c"),
            ("requires", .list [.str "session"])])])], []⟩ "c" = m :: ms ∧
      execute
          (.dict [("commands", .dict [("c", .dict [("syntax", .str "run c"),
            ("requires", .list [.str "session"])])])])
          ⟨.dict [("commands", .dict [("c", .dict [("syntax", .str "run c"),
            ("requires", .list [.str "session"])])])], []⟩
          "c" [] true none (fun _ _ => .failed "unused") =
        (.invalidState m (m :: ms),
          ⟨.dict [("commands", .dict [("c", .dict [("syntax", .str "run c"),
            ("requires", .list [.str "session"])])])], []⟩) :=
  requires_unmet_raises
    (.dict [("commands", .dict [("c", .dict [("syntax", .str "run c"),
      ("requires", .list [.str "session"])])])])
    ⟨.dict [("commands", .dict [("c", .dict [("syntax", .str "run c"),
      ("requires", .list [.str "session"])])])], []⟩
    "c" [] true none (fun _ _ => .failed "unused")
    (.dict [("syntax", .str "run c"), ("requires", .list [.str "session"])])
    rfl rfl (.str "session") (List.mem_singleton.mpr rfl) rfl

/-- C3 counterexample: the claim says a dry run on a defined command always
returns success=true and stops after BUILD "without proceeding to
precondition checking".  But the code calls `check_requires` before the
dry-run branch: a defined command whose `requires` are unmet raises
`InvalidStateError` even with `dry_run=true`, returning no result at all. -/
theorem dry_run_counterexample :
    (execute
        (.dict [("commands", .dict [("c", .dict [("syntax", .str "run c"),
          ("requires", .list [.str "session"])])])])
        ⟨.dict [("commands", .dict [("c", .dict [("syntax", .str "run c"),
          ("requires", .list [.str "session"])])])], []⟩
        "c" [] true none (fun _ _ => .completed 0 "" "")).1 =
      .invalidState (.str "session") [.str "session"] ∧
    isSuccessResult (execute
        (.dict [("commands", .dict [("c", .dict [("syntax", .str "run c"),
          ("requires", .list [.str "session"])])])])
        ⟨.dict [("commands", .dict [("c", .dict [("syntax", .str "run c"),
          ("requires", .list [.str "session"])])])], []⟩
        "c" [] true none (fun _ _ => .completed 0 "" "")).1 = false :=
  ⟨rfl, rfl⟩

/-- C3 as amended: for every defined (truthy) command whose preconditions
are all met at call time, `execute` with `dry_run=true` returns
success=true carrying the descriptive preview string, never invokes the
external process collaborator (the outcome is literally independent of the
`proc` oracle), and applies no state effects (the state comes back exactly
as passed); the invocation order is lookup → check-preconditions → build →
dry-run stop, i.e. the dry-run branch stops after BUILD but only after
preconditions were checked. -/
theorem dry_run_amended (skill : Value) (st : StateMgr)
    (commandPath : String) (args : List (String × Value))
    (timeout : Option Nat) (proc : String → Option Nat → ProcResult)
    (cmdDef : Value)
    (hcd : getCommandDef skill commandPath = some cmdDef)
    (htruthy : Value.pyTruthy cmdDef = true)
    (hreq : checkRequires st commandPath = []) :
    execute skill st commandPath args true timeout proc =
      (.result ⟨true,
        "[DRY RUN] Would execute: " ++ buildCommand skill cmdDef args, "", 0,
        buildCommand skill cmdDef args⟩, st) := by
  rw [execute, hcd]
  simp [htruthy, hreq]

/-- Witness for C3 (amended), the spec's scenario: after
`StateTracker.create("session")` the same dry-run call succeeds with the
preview string. -/
theorem dry_run_amended_witness :
    execute
        (.dict [("commands", .dict [("c", .dict [("syntax", .str "run c"),
          ("requires", .list [.str "session"])])])])
        ⟨.dict [("commands", .dict [("c", .dict [("syntax", .str "run c"),
          ("requires", .list [.str "session"])])])],
          createEnt (initEntities (.dict [("commands", .dict [("c",
            .dict [("syntax", .str "run c"),
              ("requires", .list [.str "session"])])])])) "session" none⟩
        "c" [] true none (fun _ _ => .failed "unused") =
      (.result ⟨true, "[DRY RUN] Would execute: run c", "", 0, "run c"⟩,
        ⟨.dict [("commands", .dict [("c", .dict [("syntax", .str "run c"),
          ("requires", .list [.str "session"])])])],
          createEnt (initEntities (.dict [("commands", .dict [("c",
            .dict [("syntax", .str "run c"),
              ("requires", .list [.str "session"])])])])) "session" none⟩) :=
  (dry_run_amended
    (.dict [("commands", .dict [("c", .dict [("syntax", .str "run c"),
      ("requires", .list [.str "session"])])])])
    ⟨.dict [("commands", .dict [("c", .dict [("syntax", .str "run c"),
      ("requires", .list [.str "session"])])])],
      createEnt (initEntities (.dict [("commands", .dict [("c",
        .dict [("syntax", .str "run c"),
          ("requires", .list [.str "session"])])])])) "session" none⟩
    "c" [] none (fun _ _ => .failed "unused")
    (.dict [("syntax", .str "run c"), ("requires", .list [.str "session"])])
    rfl rfl rfl).trans (by rfl)

end Uasp
